import Mathlib

/-!
Verification development for a 1D HYDRUS-style Richards/solute/heat simulator.

The Python sources (`utils.py`, `sink.py`, `watflow.py`, `solute.py`,
`temper.py`, `time_control.py`) are shallowly embedded below.  Real-number
arithmetic of the source is modelled by exact rational arithmetic `ℚ`; numpy
arrays are modelled by `List ℚ`; Python exceptions are modelled by
`Except String`.  The material constitutive functions (`theta_vg`, `c_vg`,
`fk` of `material.py`) are an external-collaborator interface per the design
document (§4.2/§6): the solvers below are parametrised by a `MatModel`
record of the three functions of matric head that `watflow.py`,
`solute.py` and `temper.py` consume, exactly at the call sites where the
sources call them.
-/

namespace Hydrus

/-- Arrays of the simulator: numpy 1-D float arrays become lists of `ℚ`. -/
abbrev Arr := List ℚ

/-- The pivot threshold `1e-18` of `solve_tridiagonal` in `utils.py`. -/
def eps18 : ℚ := 1 / 10 ^ 18

/-- The small epsilon `1e-12` used in `sink.py` / `watflow.py` / `solute.py`. -/
def eps12 : ℚ := 1 / 10 ^ 12

/-- Python's builtin `abs` on a float (`ℚ` here). -/
def rabs (x : ℚ) : ℚ := if x < 0 then -x else x

/-- Python's builtin `max` / `np.maximum` on two floats: returns the second
argument only when it is strictly larger. -/
def pymax (a b : ℚ) : ℚ := if a < b then b else a

/-- Python's builtin `min` (used through `np.clip`). -/
def pymin (a b : ℚ) : ℚ := if b < a then b else a

/-- `feddes_alpha(h, h1, h2, h3, h4)` from `utils.py`: four-threshold
piecewise-linear root-water-uptake stress response. -/
def feddes_alpha (h : ℚ) (h1 : ℚ := -10) (h2 : ℚ := -25) (h3 : ℚ := -400)
    (h4 : ℚ := -8000) : ℚ :=
  if h ≥ h1 then 0
  else if h1 > h ∧ h ≥ h2 then (h1 - h) / (h1 - h2 + eps12)
  else if h2 > h ∧ h ≥ h3 then 1
  else if h3 > h ∧ h ≥ h4 then (h - h4) / (h3 - h4 + eps12)
  else 0

/-- Zip four lists into rows, stopping at the shortest (the solver only uses
it with lists of equal length). -/
def zip4 : List ℚ → List ℚ → List ℚ → List ℚ → List (ℚ × ℚ × ℚ × ℚ)
  | a :: as, b :: bs, c :: cs, d :: ds => (a, b, c, d) :: zip4 as bs cs ds
  | _, _, _, _ => []

/-- Forward sweep of the Thomas algorithm (`utils.py`, `solve_tridiagonal`):
the carried pair `(bp, dp)` is the previously eliminated `(b[i-1], d[i-1])`;
each row of the list is `(a[i], b[i], c[i-1], d[i])` for `i = 1 .. n-1`.
Returns the eliminated pairs `(b[i], d[i])` for `i = 1 .. n-1`, or the
`ZeroDivisionError` message when a pivot magnitude drops below `1e-18`. -/
def fwdSweep : ℚ → ℚ → List (ℚ × ℚ × ℚ × ℚ) → Except String (List (ℚ × ℚ))
  | _, _, [] => .ok []
  | bp, dp, (ai, bi, ci, di) :: rest =>
    if rabs bp < eps18 then .error "Diagonal principal com zero durante Thomas"
    else
      (fwdSweep (bi - ai / bp * ci) (di - ai / bp * dp) rest).map
        (fun out => (bi - ai / bp * ci, di - ai / bp * dp) :: out)

/-- Back substitution of the Thomas algorithm: rows are the eliminated
`(b[i], d[i], c[i])` for `i = 0 .. n-1` in index order.  The recursion
evaluates the deepest (last) row first — exactly the downward `for` loop of
the source, including its order of pivot checks and error messages. -/
def backSub : List (ℚ × ℚ × ℚ) → Except String (List ℚ)
  | [] => .ok []
  | [(bi, di, _)] =>
    if rabs bi < eps18 then .error "Diagonal principal com zero no último passo do Thomas"
    else .ok [di / bi]
  | (bi, di, ci) :: r2 :: rest =>
    match backSub (r2 :: rest) with
    | .error e => .error e
    | .ok xs =>
      if rabs bi < eps18 then .error "Diagonal principal com zero na retro-substituição"
      else .ok ((di - ci * xs.headD 0) / bi :: xs)

/-- `solve_tridiagonal(a, b, c, d)` from `utils.py`: Thomas elimination on
scratch copies, raising on equal-length violation, on an empty system
(numpy `b[-1]` on a size-0 array) and on any pivot below `1e-18`. -/
def solve_tridiagonal (a b c d : Arr) : Except String Arr :=
  let n := b.length
  if a.length = n ∧ c.length = n ∧ d.length = n then
    match b, d with
    | b0 :: _, d0 :: _ =>
      match fwdSweep b0 d0 (zip4 (a.drop 1) (b.drop 1) (c.take (n - 1)) (d.drop 1)) with
      | .error e => .error e
      | .ok out =>
        let bd := (b0, d0) :: out
        backSub (List.zipWith (fun (p : ℚ × ℚ) ci => (p.1, p.2, ci)) bd c)
    | _, _ => .error "index -1 is out of bounds for axis 0 with size 0"
  else .error "a, b, c, d devem ter o mesmo tamanho"

/-- The sequence of pivots `b'[1..n-1]` produced by forward elimination,
as a total function (division by a degenerate pivot is total on `ℚ`);
rows as in `fwdSweep`. -/
def pivotAux : ℚ → List (ℚ × ℚ × ℚ × ℚ) → List ℚ
  | _, [] => []
  | bp, (ai, bi, ci, _) :: rest =>
    (bi - ai / bp * ci) :: pivotAux (bi - ai / bp * ci) rest

/-- All pivots `b'[0..n-1]` that Thomas elimination on `(a, b, c, d)` is
committed to (the diagonal after forward elimination). -/
def thomasPivots (a b c d : Arr) : List ℚ :=
  match b, d with
  | b0 :: _, _ :: _ =>
    b0 :: pivotAux b0 (zip4 (a.drop 1) (b.drop 1) (c.take (b.length - 1)) (d.drop 1))
  | _, _ => []

/-- Is an `Except` value a success? -/
def isOkE {ε α : Type} : Except ε α → Bool
  | .ok _ => true
  | .error _ => false

/-- The configuration mapping consumed by the solvers, with the documented
defaults of the sources (`config.get(key, default)`). -/
structure Config where
  NumNP : Nat := 100
  dz : ℚ := 1
  dt : ℚ := 1 / 10
  t_end : ℚ := 1
  save_every : Nat := 1
  MaxIt : Nat := 20
  TolH : ℚ := 1 / 10 ^ 6
  h_top : ℚ := -100
  q_bot : ℚ := 0
  Tpot : ℚ := 0
  beta_root : Arr := []
  z_root : Option ℚ := none
  feddes_params : Option (ℚ × ℚ × ℚ × ℚ) := none
  alphaL : ℚ := 1
  Dm : ℚ := 1 / 1000
  c_top : Option ℚ := none
  bc_c_bot_dirichlet : Bool := false
  c_bot : ℚ := 0
  lambda_dry : ℚ := 1 / 4
  lambda_sat : ℚ := 5 / 2
  rho_w : ℚ := 1000
  c_w : ℚ := 4180
  rho_s : ℚ := 2650
  c_s : ℚ := 800
  alphaT : ℚ := 1 / 100
  T_top : Option ℚ := none
  bc_T_bot_dirichlet : Bool := false
  T_bot : ℚ := 20
deriving DecidableEq

/-- The mutable simulation state dictionary: nodal fields plus simulated
time.  `none` models a key that is absent (or not an `np.ndarray`). -/
structure SimState where
  h : Arr
  theta : Arr
  sink : Option Arr := none
  c : Option Arr := none
  T : Option Arr := none
  t : ℚ := 0
deriving DecidableEq

/-- The material-model collaborator interface (`material.py`), as consumed by
the solvers: `content = theta_vg(·, Par)`, `capacity = c_vg(·, Par)`,
`conductivity = fk(0, ·, Par)`, and the retention endpoints `Qr = Par[0]`,
`Qs = Par[1]` that `temper.py` reads from the parameter vector. -/
structure MatModel where
  content : ℚ → ℚ
  capacity : ℚ → ℚ
  conductivity : ℚ → ℚ
  Qr : ℚ := 1 / 20
  Qs : ℚ := 9 / 20

/-- Python's half-to-even `round`, applied by `sink.py` to `z_root / dz`. -/
def pyRound (x : ℚ) : Int :=
  let f := x.floor
  let r := x - (f : ℚ)
  if r < 1 / 2 then f
  else if r > 1 / 2 then f + 1
  else if f % 2 = 0 then f else f + 1

/-- `build_sink_profile(config, state)` from `sink.py`. -/
def build_sink_profile (cfg : Config) (s : SimState) : Arr :=
  let NumNP := cfg.NumNP
  let dz := cfg.dz
  let h := s.h
  match s.sink with
  | some S => S
  | none =>
    let Tpot := cfg.Tpot
    if rabs Tpot < eps12 then List.replicate NumNP (0 : ℚ)
    else
      let beta0 := cfg.beta_root
      let beta :=
        if beta0.length = NumNP then beta0
        else
          let z_root := cfg.z_root.getD ((NumNP : ℚ) * dz)
          let n_root := max 1 (min NumNP (pyRound (z_root / dz)).toNat)
          List.ofFn (fun i : Fin NumNP => if i.1 < n_root then (1 : ℚ) / n_root else 0)
      let alpha :=
        match cfg.feddes_params with
        | some (h1, h2, h3, h4) => h.map (fun hi => feddes_alpha hi h1 h2 h3 h4)
        | none => List.replicate NumNP (1 : ℚ)
      List.zipWith (fun b a => Tpot * b * a / pymax dz eps12) beta alpha

/-- Infinity norm `np.linalg.norm(·, ord=np.inf)` of an array. -/
def infNorm (xs : Arr) : ℚ := (xs.map rabs).foldr pymax 0

/-- Assembly of one Newton linearisation of `solve_water_flow`
(`watflow.py`): returns `(a, b, c, r)`.  Index `i = 0` is the Dirichlet top
row, index `NumNP - 1` the Neumann bottom row (which the source assigns
last, hence it is tested first), interior rows carry the
residual/linearisation of the mixed-form Richards equation. -/
def watSystem (mat : MatModel) (cfg : Config) (S thetaOld h theta : Arr) :
    Arr × Arr × Arr × Arr :=
  let n := cfg.NumNP
  let dz := cfg.dz
  let dt := cfg.dt
  let K := h.map mat.conductivity
  let C := h.map mat.capacity
  let Kplus := fun i : Nat => (K.getD i 0 + K.getD (i + 1) 0) / 2
  let Kminus := fun i : Nat => (K.getD i 0 + K.getD (i - 1) 0) / 2
  let fluxPlus := fun i : Nat => -(Kplus i) * (h.getD (i + 1) 0 - h.getD i 0) / dz
  let fluxMinus := fun i : Nat => -(Kminus i) * (h.getD i 0 - h.getD (i - 1) 0) / dz
  let aF := fun i : Nat => if 1 ≤ i ∧ i ≤ n - 2 then Kminus i / (dz * dz) else 0
  let cF := fun i : Nat => if 1 ≤ i ∧ i ≤ n - 2 then Kplus i / (dz * dz) else 0
  let a := List.ofFn (fun i : Fin n => aF i.1)
  let c := List.ofFn (fun i : Fin n => cF i.1)
  let b := List.ofFn (fun i : Fin n =>
    if i.1 = n - 1 then 1
    else if i.1 = 0 then 1
    else if 1 ≤ i.1 ∧ i.1 ≤ n - 2 then C.getD i.1 0 / dt + aF i.1 + cF i.1
    else 0)
  let r := List.ofFn (fun i : Fin n =>
    if i.1 = n - 1 then
      (h.getD (n - 1) 0 - h.getD (n - 2) 0) / dz + cfg.q_bot / pymax (K.getD (n - 1) 0) eps12
    else if i.1 = 0 then h.getD 0 0 - cfg.h_top
    else if 1 ≤ i.1 ∧ i.1 ≤ n - 2 then
      (theta.getD i.1 0 - thetaOld.getD i.1 0) / dt
        + (fluxPlus i.1 - fluxMinus i.1) / dz + S.getD i.1 0
    else 0)
  (a, b, c, r)

/-- One Newton iteration body of `solve_water_flow`: assemble, solve for the
increment `dh = solve_tridiagonal(a, b, c, -r)`, update `h += dh` and
recompute `theta = theta_vg(h, Par)`. -/
def newtonStep (mat : MatModel) (cfg : Config) (S thetaOld : Arr)
    (st : Arr × Arr) : Except String (Arr × (Arr × Arr)) :=
  let sys := watSystem mat cfg S thetaOld st.1 st.2
  (solve_tridiagonal sys.1 sys.2.1 sys.2.2.1 (sys.2.2.2.map (fun x => -x))).map
    (fun dh =>
      let h2 := List.zipWith (· + ·) st.1 dh
      (dh, (h2, h2.map mat.content)))

/-- The `for _ in range(MaxIt)` Newton loop of `solve_water_flow`: breaks as
soon as the infinity norm of the increment falls below `TolH`; exhausting
the budget accepts the last iterate (no error). -/
def newtonLoop (mat : MatModel) (cfg : Config) (S thetaOld : Arr) :
    Nat → Arr × Arr → Except String (Arr × Arr)
  | 0, st => .ok st
  | fuel + 1, st =>
    match newtonStep mat cfg S thetaOld st with
    | .error e => .error e
    | .ok (dh, st2) =>
      if infNorm dh < cfg.TolH then .ok st2
      else newtonLoop mat cfg S thetaOld fuel st2

/-- The bare `m`-fold composition of the Newton iteration body, with no
convergence test: the reference against which the bounded loop is shown to
perform at most its budget of iterations. -/
def newtonIter (mat : MatModel) (cfg : Config) (S thetaOld : Arr) :
    Nat → Arr × Arr → Except String (Arr × Arr)
  | 0, st => .ok st
  | m + 1, st =>
    match newtonStep mat cfg S thetaOld st with
    | .error e => .error e
    | .ok (_, st2) => newtonIter mat cfg S thetaOld m st2

/-- The result dictionary returned by `solve_water_flow`. -/
structure WatRes where
  h : Arr
  theta : Arr
  sink : Arr
deriving DecidableEq

/-- `solve_water_flow(state, config, materials)` from `watflow.py`: builds
the sink profile, runs at most `MaxIt` Newton iterations starting from
`h = state["h"]`, `theta = theta_vg(h, Par)` with `theta_old =
state["theta"]`, then stores `h`, `theta` and `sink` on the state and
returns them. -/
def solve_water_flow (mat : MatModel) (cfg : Config) (s : SimState) :
    Except String (SimState × WatRes) :=
  let S := build_sink_profile cfg s
  (newtonLoop mat cfg S s.theta cfg.MaxIt (s.h, s.h.map mat.content)).map
    (fun st => ({ s with h := st.1, theta := st.2, sink := some S },
                ⟨st.1, st.2, S⟩))

/-- `np.clip(x, 0, 1)`. -/
def clip01 (x : ℚ) : ℚ := pymin (pymax x 0) 1

/-- Result dictionary of `solve_solute_transport`. -/
structure SoluteRes where
  c : Arr
  q_int : Arr
  D_int : Arr
deriving DecidableEq

/-- The assembled tridiagonal system `(a, b, c_sup, rhs)` of
`solve_solute_transport` (`solute.py`): implicit dispersion plus
semi-implicit upwind advection on interior rows, identity rows with the
Dirichlet / persisted prior value on the two boundary rows (the source
assigns row `0` and then row `NumNP - 1`, hence the last row is tested
first). -/
def soluteSystem (cfg : Config) (cOld theta qInt dInt : Arr) :
    Arr × Arr × Arr × Arr :=
  let n := cfg.NumNP
  let dz := cfg.dz
  let dt := cfg.dt
  let interior := fun i : Nat => 1 ≤ i ∧ i ≤ n - 2
  let aF := fun i : Nat =>
    if interior i then
      dInt.getD (i - 1) 0 / (dz * dz)
        + (if qInt.getD (i - 1) 0 ≥ 0 then qInt.getD (i - 1) 0 / dz else 0)
    else 0
  let cF := fun i : Nat =>
    if interior i then
      dInt.getD i 0 / (dz * dz)
        + (if qInt.getD i 0 ≥ 0 then 0 else -(qInt.getD i 0) / dz)
    else 0
  let bF := fun i : Nat =>
    if i = n - 1 then 1
    else if i = 0 then 1
    else if interior i then
      theta.getD i 0 / dt + dInt.getD (i - 1) 0 / (dz * dz) + dInt.getD i 0 / (dz * dz)
        + (if qInt.getD i 0 ≥ 0 then qInt.getD i 0 / dz else 0)
        + (if qInt.getD (i - 1) 0 ≥ 0 then 0 else -(qInt.getD (i - 1) 0) / dz)
    else 0
  let rF := fun i : Nat =>
    if i = n - 1 then (if cfg.bc_c_bot_dirichlet then cfg.c_bot else cOld.getD (n - 1) 0)
    else if i = 0 then (match cfg.c_top with | some v => v | none => cOld.getD 0 0)
    else if interior i then theta.getD i 0 * cOld.getD i 0 / dt
    else 0
  (List.ofFn (fun i : Fin n => aF i.1), List.ofFn (fun i : Fin n => bF i.1),
   List.ofFn (fun i : Fin n => cF i.1), List.ofFn (fun i : Fin n => rF i.1))

/-- `solve_solute_transport(state, config, materials)` from `solute.py`. -/
def solve_solute_transport (mat : MatModel) (cfg : Config) (s : SimState) :
    Except String (SimState × SoluteRes) :=
  let n := cfg.NumNP
  let dz := cfg.dz
  let h := s.h
  let theta := s.theta
  let cOld := s.c.getD (List.replicate n (0 : ℚ))
  let K := h.map mat.conductivity
  let qInt := List.ofFn (fun i : Fin (n - 1) =>
    -((K.getD i.1 0 + K.getD (i.1 + 1) 0) / 2) * (h.getD (i.1 + 1) 0 - h.getD i.1 0) / dz)
  let thetaInt := List.ofFn (fun i : Fin (n - 1) =>
    (theta.getD i.1 0 + theta.getD (i.1 + 1) 0) / 2)
  let dInt := List.zipWith (fun q th => cfg.alphaL * rabs q / pymax th eps12 + cfg.Dm) qInt thetaInt
  let sys := soluteSystem cfg cOld theta qInt dInt
  (solve_tridiagonal sys.1 sys.2.1 sys.2.2.1 sys.2.2.2).map (fun cNew =>
    ({ s with c := some cNew }, ⟨cNew, qInt, dInt⟩))

/-- Result dictionary of `solve_heat_transport`. -/
structure HeatRes where
  T : Arr
  lambda_int : Arr
  q_int : Arr
deriving DecidableEq

/-- The assembled tridiagonal system `(a, b, c_sup, rhs)` of
`solve_heat_transport` (`temper.py`), in SI units: implicit conduction with
effective thermal conductivity, upwind heat advection, identity boundary
rows with the Dirichlet / persisted prior temperature. -/
def heatSystem (cfg : Config) (tOld cTh qInt lamEff : Arr) :
    Arr × Arr × Arr × Arr :=
  let n := cfg.NumNP
  let dz := cfg.dz / 100
  let dt := cfg.dt * 24 * 3600
  let advCoef := cfg.rho_w * cfg.c_w / dz
  let interior := fun i : Nat => 1 ≤ i ∧ i ≤ n - 2
  let aF := fun i : Nat =>
    if interior i then
      lamEff.getD (i - 1) 0 / (dz * dz)
        + (if qInt.getD (i - 1) 0 ≥ 0 then advCoef * qInt.getD (i - 1) 0 else 0)
    else 0
  let cF := fun i : Nat =>
    if interior i then
      lamEff.getD i 0 / (dz * dz)
        + (if qInt.getD i 0 ≥ 0 then 0 else -(advCoef * qInt.getD i 0))
    else 0
  let bF := fun i : Nat =>
    if i = n - 1 then 1
    else if i = 0 then 1
    else if interior i then
      cTh.getD i 0 / dt + lamEff.getD (i - 1) 0 / (dz * dz) + lamEff.getD i 0 / (dz * dz)
        + (if qInt.getD i 0 ≥ 0 then advCoef * qInt.getD i 0 else 0)
        + (if qInt.getD (i - 1) 0 ≥ 0 then 0 else -(advCoef * qInt.getD (i - 1) 0))
    else 0
  let rF := fun i : Nat =>
    if i = n - 1 then (if cfg.bc_T_bot_dirichlet then cfg.T_bot else tOld.getD (n - 1) 0)
    else if i = 0 then (match cfg.T_top with | some v => v | none => tOld.getD 0 0)
    else if interior i then cTh.getD i 0 * tOld.getD i 0 / dt
    else 0
  (List.ofFn (fun i : Fin n => aF i.1), List.ofFn (fun i : Fin n => bF i.1),
   List.ofFn (fun i : Fin n => cF i.1), List.ofFn (fun i : Fin n => rF i.1))

/-- `solve_heat_transport(state, config, materials)` from `temper.py`:
conduction–advection solve for temperature with internal conversion of the
hydraulic fields from (cm, day) to (m, s). -/
def solve_heat_transport (mat : MatModel) (cfg : Config) (s : SimState) :
    Except String (SimState × HeatRes) :=
  let n := cfg.NumNP
  let dzCm := cfg.dz
  let h := s.h
  let theta := s.theta
  let tOld := s.T.getD (List.replicate n (20 : ℚ))
  let K := h.map mat.conductivity
  let qIntCmDay := List.ofFn (fun i : Fin (n - 1) =>
    -((K.getD i.1 0 + K.getD (i.1 + 1) 0) / 2) * (h.getD (i.1 + 1) 0 - h.getD i.1 0) / dzCm)
  let qInt := qIntCmDay.map (fun q => q * (1 / 100) / (24 * 3600))
  let se := theta.map (fun th => clip01 ((th - mat.Qr) / pymax (mat.Qs - mat.Qr) eps12))
  let lamNode := se.map (fun x => cfg.lambda_dry + (cfg.lambda_sat - cfg.lambda_dry) * x)
  let lamInt := List.ofFn (fun i : Fin (n - 1) =>
    (lamNode.getD i.1 0 + lamNode.getD (i.1 + 1) 0) / 2)
  let lamEff := List.zipWith (fun l q => l + cfg.rho_w * cfg.c_w * cfg.alphaT * rabs q) lamInt qInt
  let cTh := theta.map (fun th => cfg.rho_s * cfg.c_s * (1 - mat.Qs) + cfg.rho_w * cfg.c_w * th)
  let sys := heatSystem cfg tOld cTh qInt lamEff
  (solve_tridiagonal sys.1 sys.2.1 sys.2.2.1 sys.2.2.2).map (fun tNew =>
    ({ s with T := some tNew }, ⟨tNew, lamInt, qInt⟩))

/-- Which physics solver produced a diagnostic (the fixed Portuguese text of
the three `f"[t=...] Falha no solver de ..."` messages of
`time_control.py`). -/
inductive SolverPhase
  | water
  | solute
  | heat
deriving DecidableEq

/-- One diagnostic appended to `check_msgs`: the simulated time the message
is tagged with, the failing phase, and the exception text. -/
structure Diag where
  t : ℚ
  phase : SolverPhase
  msg : String
deriving DecidableEq

/-- The compact per-step record appended to `time_levels`. -/
structure StepRecord where
  step : Nat
  t : ℚ
  h_top : ℚ
  h_mid : ℚ
  h_bot : ℚ
deriving DecidableEq

/-- The results bundle of `run_time_loop`: compact per-step records, nodal
series (sampled every `save_every` steps), and the check diagnostics (empty
= the success message). -/
structure RunResults where
  time_levels : List StepRecord
  nodes : List (ℚ × Arr)
  concentrations : List (ℚ × Arr)
  temperatures : List (ℚ × Arr)
  check : List Diag
deriving DecidableEq

/-- A per-step solver closure as invoked by `run_time_loop`: mutates the
state and returns its nodal result array (`res_w["h"]`, `res_c["c"]` or
`res_T["T"]`). -/
abbrev StepSolver := SimState → Except String (SimState × Arr)

/-- Run the optional solute phase: `None` means the solver is not supplied
and the phase is skipped. -/
def stepOpt (f : Option StepSolver) (s : SimState) :
    Except String (SimState × Option Arr) :=
  match f with
  | none => .ok (s, none)
  | some f => (f s).map (fun p => (p.1, some p.2))

/-- The `while t < t_end - 1e-12` loop of `run_time_loop`
(`time_control.py`), with the accumulators threaded explicitly; `fuel`
bounds the number of remaining iterations (for `dt > 0`, any fuel of at
least `⌈(t_end - t)/dt⌉` lets the loop run to its natural exit).  Each
iteration invokes water, then solute (if supplied), then heat (if
supplied); the first failure appends a diagnostic tagged with the current
`t` and returns the results collected so far. -/
def runLoop (cfg : Config) (water : StepSolver) (solute heat : Option StepSolver) :
    Nat → ℚ → SimState → Nat → List StepRecord → List (ℚ × Arr) →
    List (ℚ × Arr) → List (ℚ × Arr) → List Diag → RunResults
  | 0, _, _, _, tl, ns, cs, ts, msgs => ⟨tl, ns, cs, ts, msgs⟩
  | fuel + 1, t, s, step0, tl, ns, cs, ts, msgs =>
    if t < cfg.t_end - eps12 then
      let step := step0 + 1
      match water s with
      | .error e => ⟨tl, ns, cs, ts, msgs ++ [⟨t, .water, e⟩]⟩
      | .ok (s1, hNow) =>
        match stepOpt solute s1 with
        | .error e => ⟨tl, ns, cs, ts, msgs ++ [⟨t, .solute, e⟩]⟩
        | .ok (s2, resC) =>
          match stepOpt heat s2 with
          | .error e => ⟨tl, ns, cs, ts, msgs ++ [⟨t, .heat, e⟩]⟩
          | .ok (s3, resT) =>
            let t2 := t + cfg.dt
            let s4 := { s3 with t := t2 }
            let tl2 := tl ++ [⟨step, t2, hNow.getD 0 0, hNow.getD (hNow.length / 2) 0,
                               hNow.getLastD 0⟩]
            let doSave := step % cfg.save_every = 0
            let ns2 := if doSave then ns ++ [(t2, hNow)] else ns
            let cs2 := if doSave then
                match resC with
                | some cArr => cs ++ [(t2, cArr)]
                | none => cs
              else cs
            let ts2 := if doSave then
                match resT with
                | some tArr => ts ++ [(t2, tArr)]
                | none => ts
              else ts
            runLoop cfg water solute heat fuel t2 s4 step tl2 ns2 cs2 ts2 msgs
    else ⟨tl, ns, cs, ts, msgs⟩

/-- `run_time_loop(config, profile, materials, state, solver_water,
solver_solute, solver_heat)` from `time_control.py`, starting from
`t = state.get("t", 0.0)` with empty accumulators. -/
def run_time_loop (cfg : Config) (water : StepSolver) (solute heat : Option StepSolver)
    (s : SimState) (fuel : Nat) : RunResults :=
  runLoop cfg water solute heat fuel s.t s 0 [] [] [] [] []

/-- A heap of numpy arrays: array objects are indices (references) into an
arena, so aliasing and in-place mutation are explicit.  Used to state the
no-externally-visible-mutation contract of `solve_tridiagonal`. -/
abbrev Store := List Arr

/-- Dereference an array object. -/
def readArr (sigma : Store) (r : Nat) : Arr := sigma.getD r []

/-- In-place element assignment `arr[i] = v` on the array object `r`. -/
def writeElem (sigma : Store) (r : Nat) (i : Nat) (v : ℚ) : Store :=
  sigma.set r ((readArr sigma r).set i v)

/-- Allocate a fresh array object (`np.asarray(...).copy()` /
`np.zeros(n)`). -/
def alloc (sigma : Store) (v : Arr) : Store × Nat := (sigma ++ [v], sigma.length)

/-- The `for i in range(1, n)` forward-sweep loop of `solve_tridiagonal`,
mutating the scratch copies `rb`, `rd` in place on the heap; `steps` is the
number of remaining iterations and `i` the current index. -/
def fwdLoopH (ra rb rc rd : Nat) : Nat → Nat → Store → Except String Store
  | 0, _, sigma => .ok sigma
  | steps + 1, i, sigma =>
    let a := readArr sigma ra
    let b := readArr sigma rb
    let c := readArr sigma rc
    let d := readArr sigma rd
    let denom := b.getD (i - 1) 0
    if rabs denom < eps18 then .error "Diagonal principal com zero durante Thomas"
    else
      let w := a.getD i 0 / denom
      let sigma1 := writeElem sigma rb i (b.getD i 0 - w * c.getD (i - 1) 0)
      let sigma2 := writeElem sigma1 rd i (d.getD i 0 - w * d.getD (i - 1) 0)
      fwdLoopH ra rb rc rd steps (i + 1) sigma2

/-- The `for i in range(n-2, -1, -1)` back-substitution loop, writing into
the solution array `rx`. -/
def backLoopH (rb rc rd rx : Nat) : Nat → Nat → Store → Except String Store
  | 0, _, sigma => .ok sigma
  | steps + 1, i, sigma =>
    let b := readArr sigma rb
    let c := readArr sigma rc
    let d := readArr sigma rd
    let x := readArr sigma rx
    if rabs (b.getD i 0) < eps18 then .error "Diagonal principal com zero na retro-substituição"
    else
      let sigma1 := writeElem sigma rx i ((d.getD i 0 - c.getD i 0 * x.getD (i + 1) 0) / b.getD i 0)
      backLoopH rb rc rd rx steps (i - 1) sigma1

/-- `solve_tridiagonal` as the heap program it is in `utils.py`: the four
caller arrays are dereferenced, copied into fresh scratch objects, the
elimination loops mutate only the scratch objects and the freshly allocated
solution array, whose reference is returned. -/
def solve_tridiagonal_heap (sigma : Store) (ra rb rc rd : Nat) :
    Except String (Store × Nat) :=
  let p1 := alloc sigma (readArr sigma ra)
  let p2 := alloc p1.1 (readArr p1.1 rb)
  let p3 := alloc p2.1 (readArr p2.1 rc)
  let p4 := alloc p3.1 (readArr p3.1 rd)
  let sigma4 := p4.1
  let n := (readArr sigma4 p2.2).length
  if (readArr sigma4 p1.2).length = n ∧ (readArr sigma4 p3.2).length = n ∧
      (readArr sigma4 p4.2).length = n then
    match fwdLoopH p1.2 p2.2 p3.2 p4.2 (n - 1) 1 sigma4 with
    | .error e => .error e
    | .ok sigma5 =>
      let px := alloc sigma5 (List.replicate n (0 : ℚ))
      let sigma6 := px.1
      if n = 0 then .error "index -1 is out of bounds for axis 0 with size 0"
      else if rabs ((readArr sigma6 p2.2).getD (n - 1) 0) < eps18 then
        .error "Diagonal principal com zero no último passo do Thomas"
      else
        let sigma7 := writeElem sigma6 px.2 (n - 1)
          ((readArr sigma6 p4.2).getD (n - 1) 0 / (readArr sigma6 p2.2).getD (n - 1) 0)
        match backLoopH p2.2 p3.2 p4.2 px.2 (n - 1) (n - 2) sigma7 with
        | .error e => .error e
        | .ok sigma8 => .ok (sigma8, px.2)
  else .error "a, b, c, d devem ter o mesmo tamanho"

/-- A simple concrete material interface used by witnesses: zero retention,
unit capacity and unit conductivity. -/
def matUnit : MatModel :=
  { content := fun _ => 0, capacity := fun _ => 1, conductivity := fun _ => 1 }

/-- Configuration of the concrete two-step root-uptake scenario: active
transpiration, a root profile concentrated at the surface node, Feddes
stress thresholds at their `utils.py` defaults, and one Newton iteration
per step. -/
def sinkCacheCfg : Config :=
  { NumNP := 2, dz := 1, dt := 1, MaxIt := 1, h_top := -30, Tpot := 1,
    beta_root := [1, 0], feddes_params := some (-10, -25, -400, -8000) }

/-- Initial state of the scenario: uniform head `-20` (inside the Feddes
ramp between `h1 = -10` and `h2 = -25`). -/
def sinkCacheState : SimState := { h := [-20, -20], theta := [0, 0] }

/-- The state after one water-flow step of the scenario — the orchestrated
loop threads exactly this state into the second step. -/
def sinkCacheState2 : SimState :=
  match solve_water_flow matUnit sinkCacheCfg sinkCacheState with
  | .ok p => p.1
  | .error _ => sinkCacheState


theorem isOkE_iff {ε α : Type} (e : Except ε α) : isOkE e = true ↔ ∃ x, e = .ok x := by
  cases e <;> simp [isOkE]

theorem exmap_ok {ε α β : Type} (e : Except ε α) (f : α → β) (y : β) :
    e.map f = .ok y ↔ ∃ x, e = .ok x ∧ y = f x := by
  cases e <;> simp [Except.map, eq_comm]

theorem exmap_err {ε α β : Type} (e : Except ε α) (f : α → β) (s : ε) :
    e.map f = .error s ↔ e = .error s := by
  cases e <;> simp [Except.map]

theorem fwd_ok_length (rows : List (ℚ × ℚ × ℚ × ℚ)) :
    ∀ bp dp out, fwdSweep bp dp rows = .ok out → out.length = rows.length := by
  induction rows with
  | nil =>
    intro bp dp out h
    simp only [fwdSweep] at h
    cases h
    rfl
  | cons r rest ih =>
    obtain ⟨ai, bi, ci, di⟩ := r
    intro bp dp out h
    simp only [fwdSweep] at h
    by_cases hb : rabs bp < eps18
    · simp [hb] at h
    · simp only [hb, if_false] at h
      rw [exmap_ok] at h
      obtain ⟨out2, h1, h2⟩ := h
      subst h2
      simp [ih _ _ _ h1]

theorem fwd_map_fst (rows : List (ℚ × ℚ × ℚ × ℚ)) :
    ∀ bp dp out, fwdSweep bp dp rows = .ok out →
      out.map Prod.fst = pivotAux bp rows := by
  induction rows with
  | nil =>
    intro bp dp out h
    simp only [fwdSweep] at h
    cases h
    rfl
  | cons r rest ih =>
    obtain ⟨ai, bi, ci, di⟩ := r
    intro bp dp out h
    simp only [fwdSweep] at h
    by_cases hb : rabs bp < eps18
    · simp [hb] at h
    · simp only [hb, if_false] at h
      rw [exmap_ok] at h
      obtain ⟨out2, h1, h2⟩ := h
      subst h2
      simp only [pivotAux, List.map_cons]
      exact congrArg _ (ih _ _ _ h1)

theorem fwd_error_iff (rows : List (ℚ × ℚ × ℚ × ℚ)) :
    ∀ bp dp, (∃ e, fwdSweep bp dp rows = .error e) ↔
      ∃ p ∈ (bp :: pivotAux bp rows).dropLast, rabs p < eps18 := by
  induction rows with
  | nil => intro bp dp; simp [fwdSweep, pivotAux]
  | cons r rest ih =>
    obtain ⟨ai, bi, ci, di⟩ := r
    intro bp dp
    simp only [fwdSweep, pivotAux, List.dropLast_cons₂]
    by_cases hb : rabs bp < eps18
    · simp only [hb, if_true]
      constructor
      · intro _
        exact ⟨bp, List.mem_cons_self _ _, hb⟩
      · intro _
        exact ⟨_, rfl⟩
    · simp only [hb, if_false]
      constructor
      · rintro ⟨e, he⟩
        rw [exmap_err] at he
        obtain ⟨p, hp1, hp2⟩ := (ih _ (di - ai / bp * dp)).mp ⟨e, he⟩
        exact ⟨p, List.mem_cons_of_mem _ hp1, hp2⟩
      · rintro ⟨p, hp1, hp2⟩
        rcases List.mem_cons.mp hp1 with hp1 | hp1
        · subst hp1
          exact absurd hp2 hb
        · obtain ⟨e, he⟩ := (ih _ (di - ai / bp * dp)).mpr ⟨p, hp1, hp2⟩
          refine ⟨e, ?_⟩
          rw [exmap_err]
          exact he

theorem fwd_getLast (rows : List (ℚ × ℚ × ℚ × ℚ)) :
    ∀ bp dp out bl cl dl, fwdSweep bp dp rows = .ok out →
      rows.getLast? = some (0, bl, cl, dl) → out.getLast? = some (bl, dl) := by
  induction rows with
  | nil =>
    intro bp dp out bl cl dl _ h2
    simp at h2
  | cons r rest ih =>
    obtain ⟨ai, bi, ci, di⟩ := r
    intro bp dp out bl cl dl h h2
    simp only [fwdSweep] at h
    by_cases hb : rabs bp < eps18
    · simp [hb] at h
    · simp only [hb, if_false] at h
      rw [exmap_ok] at h
      obtain ⟨out2, h1, hout⟩ := h
      subst hout
      cases rest with
      | nil =>
        simp only [fwdSweep] at h1
        cases h1
        simp only [List.getLast?_singleton, Option.some.injEq, Prod.mk.injEq] at h2
        obtain ⟨h2a, h2b, _, h2d⟩ := h2
        subst h2a h2b h2d
        simp
      | cons r2 rest2 =>
        rw [List.getLast?_cons_cons] at h2
        have h1len := fwd_ok_length _ _ _ _ h1
        cases out2 with
        | nil => simp at h1len
        | cons o1 orest =>
          rw [List.getLast?_cons_cons]
          exact ih _ _ _ _ _ _ h1 h2

theorem backSub_length (rows : List (ℚ × ℚ × ℚ)) :
    ∀ xs, backSub rows = .ok xs → xs.length = rows.length := by
  induction rows with
  | nil =>
    intro xs h
    simp only [backSub] at h
    cases h
    rfl
  | cons r rest ih =>
    obtain ⟨bi, di, ci⟩ := r
    intro xs h
    cases rest with
    | nil =>
      simp only [backSub] at h
      by_cases hb : rabs bi < eps18
      · simp [hb] at h
      · simp only [hb, if_false] at h
        cases h
        rfl
    | cons r2 rest2 =>
      simp only [backSub] at h
      cases hb2 : backSub (r2 :: rest2) with
      | error e => rw [hb2] at h; simp at h
      | ok xs2 =>
        rw [hb2] at h
        by_cases hb : rabs bi < eps18
        · simp [hb] at h
        · simp only [hb, if_false] at h
          cases h
          simp [ih _ hb2]

theorem backSub_error_iff (rows : List (ℚ × ℚ × ℚ)) :
    (∃ e, backSub rows = .error e) ↔ ∃ r ∈ rows, rabs r.1 < eps18 := by
  induction rows with
  | nil => simp [backSub]
  | cons r rest ih =>
    obtain ⟨bi, di, ci⟩ := r
    cases rest with
    | nil =>
      simp only [backSub]
      by_cases hb : rabs bi < eps18 <;> simp [hb]
    | cons r2 rest2 =>
      cases hb2 : backSub (r2 :: rest2) with
      | error e2 =>
        have hL : backSub ((bi, di, ci) :: r2 :: rest2) = .error e2 := by
          simp only [backSub, hb2]
        constructor
        · intro _
          obtain ⟨rr, h1, h2⟩ := ih.mp ⟨e2, hb2⟩
          exact ⟨rr, List.mem_cons_of_mem _ h1, h2⟩
        · intro _
          exact ⟨e2, hL⟩
      | ok xs2 =>
        by_cases hb : rabs bi < eps18
        · have hL : backSub ((bi, di, ci) :: r2 :: rest2) =
              .error "Diagonal principal com zero na retro-substituição" := by
            simp only [backSub, hb2, hb, if_true]
          constructor
          · intro _
            exact ⟨(bi, di, ci), List.mem_cons_self _ _, hb⟩
          · intro _
            exact ⟨_, hL⟩
        · have hL : backSub ((bi, di, ci) :: r2 :: rest2) =
              .ok ((di - ci * xs2.headD 0) / bi :: xs2) := by
            simp only [backSub, hb2, hb, if_false]
          have hnone : ¬ ∃ e, backSub (r2 :: rest2) = .error e := by
            rintro ⟨e, he⟩
            rw [he] at hb2
            cases hb2
          constructor
          · rintro ⟨e, he⟩
            rw [hL] at he
            cases he
          · rintro ⟨rr, h1, h2⟩
            rcases List.mem_cons.mp h1 with h1 | h1
            · subst h1
              exact absurd h2 hb
            · exact absurd (ih.mpr ⟨rr, h1, h2⟩) hnone

theorem backSub_zeros (rows : List (ℚ × ℚ × ℚ)) :
    (∀ r ∈ rows, eps18 ≤ rabs r.1 ∧ r.2.1 = 0) →
      backSub rows = .ok (List.replicate rows.length 0) := by
  induction rows with
  | nil => intro _; simp [backSub]
  | cons r rest ih =>
    obtain ⟨bi, di, ci⟩ := r
    intro hall
    have hr := hall _ (List.mem_cons_self _ _)
    have hb : ¬ rabs bi < eps18 := not_lt.mpr hr.1
    have hd : di = 0 := hr.2
    subst hd
    cases rest with
    | nil => simp [backSub, hb, List.replicate]
    | cons r2 rest2 =>
      have hrec := ih (fun rr hrm => hall rr (List.mem_cons_of_mem _ hrm))
      simp only [backSub, hrec, hb, if_false]
      have hhead : (List.replicate (r2 :: rest2).length (0 : ℚ)).headD 0 = 0 := by
        simp [List.replicate_succ]
      rw [hhead]
      simp [List.replicate_succ]

theorem backSub_head (rows : List (ℚ × ℚ × ℚ)) (d0 : ℚ) :
    ∀ xs, backSub ((1, d0, 0) :: rows) = .ok xs → xs.head? = some d0 := by
  have hb : ¬ (rabs 1 < eps18) := by norm_num [eps18, rabs]
  intro xs h
  cases rows with
  | nil =>
    simp only [backSub, hb, if_false] at h
    cases h
    simp
  | cons r2 rest2 =>
    simp only [backSub] at h
    cases hb2 : backSub (r2 :: rest2) with
    | error e => rw [hb2] at h; simp at h
    | ok xs2 =>
      rw [hb2] at h
      simp only [hb, if_false] at h
      cases h
      simp

theorem backSub_getLast (rows : List (ℚ × ℚ × ℚ)) :
    ∀ xs bl dl cl, backSub rows = .ok xs → rows.getLast? = some (bl, dl, cl) →
      xs.getLast? = some (dl / bl) := by
  induction rows with
  | nil =>
    intro xs bl dl cl _ h2
    simp at h2
  | cons r rest ih =>
    obtain ⟨bi, di, ci⟩ := r
    intro xs bl dl cl h h2
    cases rest with
    | nil =>
      simp only [backSub] at h
      by_cases hb : rabs bi < eps18
      · simp [hb] at h
      · simp only [hb, if_false] at h
        cases h
        simp only [List.getLast?_singleton, Option.some.injEq, Prod.mk.injEq] at h2
        obtain ⟨h2a, h2b, _⟩ := h2
        subst h2a h2b
        simp
    | cons r2 rest2 =>
      simp only [backSub] at h
      cases hb2 : backSub (r2 :: rest2) with
      | error e => rw [hb2] at h; simp at h
      | ok xs2 =>
        rw [hb2] at h
        by_cases hb : rabs bi < eps18
        · simp [hb] at h
        · simp only [hb, if_false] at h
          cases h
          rw [List.getLast?_cons_cons] at h2
          have h1len := backSub_length _ _ hb2
          cases xs2 with
          | nil => simp at h1len
          | cons x1 xrest =>
            rw [List.getLast?_cons_cons]
            exact ih _ _ _ _ hb2 h2

theorem zip4_length (as₁ : Arr) :
    ∀ bs cs ds : Arr, ∀ k : Nat, as₁.length = k → bs.length = k → cs.length = k →
      ds.length = k → (zip4 as₁ bs cs ds).length = k := by
  induction as₁ with
  | nil =>
    intro bs cs ds k h1 _ _ _
    simp at h1
    subst h1
    simp [zip4]
  | cons x xs ih =>
    intro bs cs ds k h1 h2 h3 h4
    cases bs with
    | nil => rw [← h1] at h2; simp at h2
    | cons y ys =>
      cases cs with
      | nil => rw [← h1] at h3; simp at h3
      | cons z zs =>
        cases ds with
        | nil => rw [← h1] at h4; simp at h4
        | cons w ws =>
          cases k with
          | zero => simp at h1
          | succ k =>
            simp only [List.length_cons, Nat.succ.injEq] at h1 h2 h3 h4
            simp only [zip4, List.length_cons]
            rw [ih ys zs ws k h1 h2 h3 h4]

theorem zip4_getLast (as₁ : Arr) :
    ∀ bs cs ds : Arr, ∀ av bv cv dv : ℚ,
      as₁.length = bs.length → as₁.length = cs.length → as₁.length = ds.length →
      as₁.getLast? = some av → bs.getLast? = some bv → cs.getLast? = some cv →
      ds.getLast? = some dv →
      (zip4 as₁ bs cs ds).getLast? = some (av, bv, cv, dv) := by
  induction as₁ with
  | nil =>
    intro bs cs ds av bv cv dv _ _ _ h4 _ _ _
    simp at h4
  | cons x xs ih =>
    intro bs cs ds av bv cv dv h1 h2 h3 h4 h5 h6 h7
    cases bs with
    | nil => simp at h1
    | cons y ys =>
      cases cs with
      | nil => simp at h2
      | cons z zs =>
        cases ds with
        | nil => simp at h3
        | cons w ws =>
          simp only [List.length_cons, Nat.succ.injEq] at h1 h2 h3
          cases xs with
          | nil =>
            have hys : ys = [] := List.eq_nil_of_length_eq_zero h1.symm
            have hzs : zs = [] := List.eq_nil_of_length_eq_zero h2.symm
            have hws : ws = [] := List.eq_nil_of_length_eq_zero h3.symm
            subst hys hzs hws
            simp only [List.getLast?_singleton, Option.some.injEq] at h4 h5 h6 h7
            subst h4 h5 h6 h7
            simp [zip4]
          | cons x2 xs2 =>
            cases ys with
            | nil => simp at h1
            | cons y2 ys2 =>
              cases zs with
              | nil => simp at h2
              | cons z2 zs2 =>
                cases ws with
                | nil => simp at h3
                | cons w2 ws2 =>
                  rw [List.getLast?_cons_cons] at h4 h5 h6 h7
                  have := ih (y2 :: ys2) (z2 :: zs2) (w2 :: ws2) av bv cv dv h1 h2 h3 h4 h5 h6 h7
                  simpa [zip4] using this

theorem map_fst_zipWith_pair (l : List (ℚ × ℚ)) :
    ∀ m : Arr, l.length = m.length →
      (List.zipWith (fun (p : ℚ × ℚ) ci => (p.1, p.2, ci)) l m).map (fun r => r.1) =
        l.map Prod.fst := by
  induction l with
  | nil => intro m _; simp
  | cons p l ih =>
    intro m h
    cases m with
    | nil => simp at h
    | cons c m =>
      simp only [List.length_cons, Nat.succ.injEq] at h
      simp [ih m h]

theorem zipWith_pair_getLast (l : List (ℚ × ℚ)) :
    ∀ m : Arr, ∀ p : ℚ × ℚ, ∀ cl : ℚ, l.length = m.length →
      l.getLast? = some p → m.getLast? = some cl →
      (List.zipWith (fun (q : ℚ × ℚ) ci => (q.1, q.2, ci)) l m).getLast? =
        some (p.1, p.2, cl) := by
  induction l with
  | nil => intro m p cl _ h2 _; simp at h2
  | cons q l ih =>
    intro m p cl h h2 h3
    cases m with
    | nil => simp at h
    | cons c m =>
      simp only [List.length_cons, Nat.succ.injEq] at h
      cases l with
      | nil =>
        have hm : m = [] := List.eq_nil_of_length_eq_zero h.symm
        subst hm
        simp only [List.getLast?_singleton, Option.some.injEq] at h2 h3
        subst h2 h3
        simp
      | cons q2 l2 =>
        cases m with
        | nil => simp at h
        | cons c2 m2 =>
          rw [List.getLast?_cons_cons] at h2 h3
          have := ih (c2 :: m2) p cl h h2 h3
          simpa using this

/-- Claim C1: `solve_tridiagonal` on four equal-length arrays (`n ≥ 2`)
raises the singularity (`ZeroDivisionError`) condition exactly when some
pivot of the eliminated diagonal has magnitude below `1e-18` (in
particular a zero pivot always raises), and otherwise returns a solution
vector of length `n`. -/
theorem solve_tridiagonal_singular_iff (a b c d : Arr)
    (ha : a.length = b.length) (hc : c.length = b.length) (hd : d.length = b.length)
    (hn : 2 ≤ b.length) :
    ((∃ e, solve_tridiagonal a b c d = .error e) ↔
      ∃ p ∈ thomasPivots a b c d, rabs p < eps18) ∧
    (∀ x, solve_tridiagonal a b c d = .ok x → x.length = b.length) := by
  cases b with
  | nil => simp at hn
  | cons b0 btl =>
  cases d with
  | nil => simp at hd
  | cons d0 dtl =>
  have hguard : a.length = (b0 :: btl).length ∧ c.length = (b0 :: btl).length ∧
      (d0 :: dtl).length = (b0 :: btl).length := ⟨ha, hc, hd⟩
  have hsolve : solve_tridiagonal a (b0 :: btl) c (d0 :: dtl) =
      match fwdSweep b0 d0 (zip4 (a.drop 1) ((b0 :: btl).drop 1)
          (c.take ((b0 :: btl).length - 1)) ((d0 :: dtl).drop 1)) with
      | .error e => .error e
      | .ok out =>
        backSub (List.zipWith (fun (p : ℚ × ℚ) ci => (p.1, p.2, ci)) ((b0, d0) :: out) c) := by
    simp only [solve_tridiagonal, hguard, and_self, if_true]
  have hpiv : thomasPivots a (b0 :: btl) c (d0 :: dtl) =
      b0 :: pivotAux b0 (zip4 (a.drop 1) ((b0 :: btl).drop 1)
        (c.take ((b0 :: btl).length - 1)) ((d0 :: dtl).drop 1)) := rfl
  have hrowlen : (zip4 (a.drop 1) ((b0 :: btl).drop 1)
      (c.take ((b0 :: btl).length - 1)) ((d0 :: dtl).drop 1)).length =
      (b0 :: btl).length - 1 := by
    apply zip4_length
    · simp [ha]
    · simp
    · rw [List.length_take, hc]
      simp
    · simp only [List.length_drop, hd]
  cases hfwd : fwdSweep b0 d0 (zip4 (a.drop 1) ((b0 :: btl).drop 1)
      (c.take ((b0 :: btl).length - 1)) ((d0 :: dtl).drop 1)) with
  | error e =>
    rw [hfwd] at hsolve
    constructor
    · rw [hpiv]
      apply iff_of_true ⟨e, hsolve⟩
      obtain ⟨p, hp1, hp2⟩ := ((fwd_error_iff _ b0 d0).mp ⟨e, hfwd⟩)
      exact ⟨p, List.mem_of_mem_dropLast hp1, hp2⟩
    · intro x hx
      rw [hsolve] at hx
      cases hx
  | ok out =>
    rw [hfwd] at hsolve
    have houtlen : out.length = (b0 :: btl).length - 1 := by
      rw [fwd_ok_length _ _ _ _ hfwd, hrowlen]
    have hbdlen : ((b0, d0) :: out).length = c.length := by
      simp only [List.length_cons, houtlen, hc]
      omega
    have hrows3 : (List.zipWith (fun (p : ℚ × ℚ) ci => (p.1, p.2, ci))
        ((b0, d0) :: out) c).map (fun r => r.1) =
        thomasPivots a (b0 :: btl) c (d0 :: dtl) := by
      rw [map_fst_zipWith_pair _ _ hbdlen, hpiv]
      simp only [List.map_cons]
      rw [fwd_map_fst _ _ _ _ hfwd]
    constructor
    · rw [hsolve, backSub_error_iff, ← hrows3]
      constructor
      · rintro ⟨r, hr1, hr2⟩
        exact ⟨r.1, List.mem_map_of_mem _ hr1, hr2⟩
      · rintro ⟨p, hp1, hp2⟩
        obtain ⟨r, hr1, hr2⟩ := List.mem_map.mp hp1
        exact ⟨r, hr1, by rw [hr2]; exact hp2⟩
    · intro x hx
      rw [hsolve] at hx
      have := backSub_length _ _ hx
      rw [List.length_zipWith, hbdlen, hc, min_self] at this
      exact this

theorem rabs_eq_abs (x : ℚ) : rabs x = |x| := by
  rcases lt_trichotomy x 0 with h | h | h
  · rw [rabs, if_pos h, abs_of_neg h]
  · subst h
    simp [rabs]
  · rw [rabs, if_neg (not_lt.mpr h.le), abs_of_pos h]

theorem pymax_eq_max (a b : ℚ) : pymax a b = max a b := by
  rw [pymax, max_def]
  rcases lt_trichotomy a b with h | h | h
  · rw [if_pos h, if_pos h.le]
  · subst h
    simp
  · rw [if_neg (not_lt.mpr h.le), if_neg (not_le.mpr h)]

theorem zipWith_replicate_right {α β γ : Type} (f : α → β → γ) (x : β) :
    ∀ (l : List α) (n : Nat), l.length = n →
      List.zipWith f l (List.replicate n x) = l.map (fun a => f a x) := by
  intro l
  induction l with
  | nil => intro n _; simp
  | cons a l ih =>
    intro n h
    cases n with
    | zero => simp at h
    | succ n =>
      simp only [List.length_cons, Nat.succ.injEq] at h
      simp only [List.replicate_succ, List.zipWith_cons_cons, List.map_cons]
      rw [ih n h]

/-- Witness for C1 at a concrete diagonally dominant 2×2 system. -/
theorem solve_tridiagonal_singular_iff_witness :
    ((∃ e, solve_tridiagonal [0, 1] [2, 1] [1, 0] [1, 1] = .error e) ↔
      ∃ p ∈ thomasPivots [0, 1] [2, 1] [1, 0] [1, 1], rabs p < eps18) ∧
    (∀ x, solve_tridiagonal [0, 1] [2, 1] [1, 0] [1, 1] = .ok x →
      x.length = ([2, 1] : Arr).length) :=
  solve_tridiagonal_singular_iff [0, 1] [2, 1] [1, 0] [1, 1] rfl rfl rfl
    (Nat.le_refl 2)

/-- Claim C6: a potential transpiration of magnitude below `1e-12` (in
particular the default `Tpot = 0`) always yields the all-zero sink profile
of length `NumNP`, whatever the head field, root distribution, rooting
depth and stress parameters, provided no caller-supplied sink array sits on
the state. -/
theorem build_sink_zero_Tpot (cfg : Config) (s : SimState)
    (hs : s.sink = none) (hT : rabs cfg.Tpot < eps12) :
    build_sink_profile cfg s = List.replicate cfg.NumNP 0 := by
  simp only [build_sink_profile, hs, hT, if_true]

/-- Witness for C6: `Tpot = 0` with a junk root distribution and stress
thresholds still gives the zero sink. -/
theorem build_sink_zero_Tpot_witness :
    build_sink_profile
      { NumNP := 3, Tpot := 0, beta_root := [5, 5, 5],
        feddes_params := some (-10, -25, -400, -8000) }
      { h := [1, 2, 3], theta := [0, 0, 0] } = [0, 0, 0] := by
  have h := build_sink_zero_Tpot
    { NumNP := 3, Tpot := 0, beta_root := [5, 5, 5],
      feddes_params := some (-10, -25, -400, -8000) }
    { h := [1, 2, 3], theta := [0, 0, 0] } rfl (by norm_num [rabs, eps12])
  simpa [List.replicate] using h

/-- Claim C7 (amended): with no sink on state, `|Tpot| ≥ 1e-12`, a supplied
root distribution of the right length summing to one, no Feddes stress
parameters (so `alpha ≡ 1`) and `dz ≥ 1e-12` (the source divides by
`max(dz, 1e-12)`, so only above that floor is the divisor `dz` itself),
the sink is exactly `S[i] = Tpot * beta_root[i] / dz`. -/
theorem build_sink_unit_stress (cfg : Config) (s : SimState)
    (hs : s.sink = none) (hT : eps12 ≤ rabs cfg.Tpot)
    (hlen : cfg.beta_root.length = cfg.NumNP) (hsum : cfg.beta_root.sum = 1)
    (hfed : cfg.feddes_params = none) (hdz : eps12 ≤ cfg.dz) :
    build_sink_profile cfg s = cfg.beta_root.map (fun b => cfg.Tpot * b / cfg.dz) := by
  have hT2 : ¬ rabs cfg.Tpot < eps12 := not_lt.mpr hT
  have hdz2 : pymax cfg.dz eps12 = cfg.dz := by
    rw [pymax, if_neg (not_lt.mpr hdz)]
  simp only [build_sink_profile, hs, hT2, if_false, hlen, if_true, hfed]
  rw [zipWith_replicate_right _ _ _ _ hlen, hdz2]
  simp [mul_one]

/-- Counterexample to C7 as stated: with `0 < dz = 1e-13` below the
source's `1e-12` divisor floor, the computed sink divides by `1e-12`, not
by `dz`. -/
theorem build_sink_unit_stress_cex :
    build_sink_profile { NumNP := 3, dz := 1 / 10 ^ 13, Tpot := 1, beta_root := [1, 0, 0] }
        { h := [0, 0, 0], theta := [0, 0, 0] } ≠
      ([1, 0, 0] : Arr).map (fun b => 1 * b / (1 / 10 ^ 13)) := by
  norm_num [build_sink_profile, pymax, eps12, rabs, List.replicate_succ]

/-- Witness for C7 (amended): a two-node profile with `Tpot = 1`, `dz = 1`
and `beta_root = [1/2, 1/2]` receives exactly `S = Tpot*beta/dz = [1/2, 1/2]`. -/
theorem build_sink_unit_stress_witness :
    build_sink_profile { NumNP := 2, dz := 1, Tpot := 1, beta_root := [1/2, 1/2] }
      { h := [0, 0], theta := [0, 0] } = [1/2, 1/2] := by
  have h := build_sink_unit_stress
    { NumNP := 2, dz := 1, Tpot := 1, beta_root := [1/2, 1/2] }
    { h := [0, 0], theta := [0, 0] }
    rfl (by norm_num [rabs, eps12]) rfl (by norm_num) rfl (by norm_num [eps12])
  rw [h]
  norm_num

/-- Claim C4: the Newton loop of the water-flow solver is bounded and its
non-convergence is non-fatal — (i) an exhausted budget accepts the current
iterate without raising; (ii) the loop stops successfully as soon as the
increment's infinity norm is below `TolH`; (iii) otherwise it continues on
the updated iterate; (iv) the loop's outcome is always the plain `m`-fold
iteration for some `m` within the budget; (v) on a successful loop,
`solve_water_flow` runs it with the `MaxIt` budget and stores/returns the
final head, content and sink arrays. -/
theorem newton_budget (mat : MatModel) (cfg : Config) (S thOld : Arr) :
    (∀ st, newtonLoop mat cfg S thOld 0 st = .ok st) ∧
    (∀ k st dh st2, newtonStep mat cfg S thOld st = .ok (dh, st2) →
      infNorm dh < cfg.TolH → newtonLoop mat cfg S thOld (k + 1) st = .ok st2) ∧
    (∀ k st dh st2, newtonStep mat cfg S thOld st = .ok (dh, st2) →
      ¬ infNorm dh < cfg.TolH →
      newtonLoop mat cfg S thOld (k + 1) st = newtonLoop mat cfg S thOld k st2) ∧
    (∀ fuel st, ∃ m ≤ fuel,
      newtonLoop mat cfg S thOld fuel st = newtonIter mat cfg S thOld m st) ∧
    (∀ s h2 th2, newtonLoop mat cfg (build_sink_profile cfg s) s.theta cfg.MaxIt
        (s.h, s.h.map mat.content) = .ok (h2, th2) →
      solve_water_flow mat cfg s = .ok
        ({ s with h := h2, theta := th2, sink := some (build_sink_profile cfg s) },
         ⟨h2, th2, build_sink_profile cfg s⟩)) := by
  refine ⟨fun st => rfl, ?_, ?_, ?_, ?_⟩
  · intro k st dh st2 hstep htol
    simp only [newtonLoop, hstep, htol, if_true]
  · intro k st dh st2 hstep htol
    simp only [newtonLoop, hstep, htol, if_false]
  · intro fuel
    induction fuel with
    | zero =>
      intro st
      exact ⟨0, Nat.le_refl 0, rfl⟩
    | succ fuel ih =>
      intro st
      cases hstep : newtonStep mat cfg S thOld st with
      | error e =>
        refine ⟨1, Nat.succ_le_succ (Nat.zero_le _), ?_⟩
        simp only [newtonLoop, newtonIter, hstep]
      | ok p =>
        obtain ⟨dh, st2⟩ := p
        by_cases htol : infNorm dh < cfg.TolH
        · refine ⟨1, Nat.succ_le_succ (Nat.zero_le _), ?_⟩
          simp only [newtonLoop, newtonIter, hstep, htol, if_true]
        · obtain ⟨m, hm, heq⟩ := ih st2
          refine ⟨m + 1, Nat.succ_le_succ hm, ?_⟩
          simp only [newtonLoop, newtonIter, hstep, htol, if_false]
          exact heq
  · intro s h2 th2 hloop
    simp only [solve_water_flow, hloop, Except.map]

/-- Witness for C4 at a concrete material, the default configuration and a
concrete iterate: budget exhaustion returns the iterate unchanged, and a
three-iteration budget is matched by some `m ≤ 3` plain iterations. -/
theorem newton_budget_witness :
    newtonLoop matUnit {} [] [] 0 ([1], [2]) = .ok ([1], [2]) ∧
    ∃ m ≤ 3, newtonLoop matUnit {} [] [] 3 ([1], [2]) =
      newtonIter matUnit {} [] [] m ([1], [2]) :=
  ⟨(newton_budget matUnit {} [] []).1 ([1], [2]),
   (newton_budget matUnit {} [] []).2.2.2.1 3 ([1], [2])⟩

/-- Claim C9: the water-flow solver is deterministic in its inputs — two
states agreeing on `h` and `theta`, both without a sink array (whatever
their concentration, temperature and time fields), produce identical output
head, content and sink arrays, both in the returned result and on the
updated state. -/
theorem water_flow_deterministic (mat : MatModel) (cfg : Config)
    (s1 s2 : SimState) (hh : s1.h = s2.h) (hth : s1.theta = s2.theta)
    (hs1 : s1.sink = none) (hs2 : s2.sink = none) :
    (solve_water_flow mat cfg s1).map (fun p => (p.1.h, p.1.theta, p.1.sink, p.2)) =
    (solve_water_flow mat cfg s2).map (fun p => (p.1.h, p.1.theta, p.1.sink, p.2)) := by
  have hsink : build_sink_profile cfg s1 = build_sink_profile cfg s2 := by
    simp only [build_sink_profile, hs1, hs2, hh]
  simp only [solve_water_flow, hsink, hh, hth]
  cases newtonLoop mat cfg (build_sink_profile cfg s2) s2.theta cfg.MaxIt
    (s2.h, s2.h.map mat.content) <;> simp [Except.map]

/-- Witness for C9: two states with the same hydraulic fields but different
concentration, temperature and clock fields. -/
theorem water_flow_deterministic_witness :
    (solve_water_flow matUnit {} { h := [1], theta := [2], c := some [9], t := 5 }).map
      (fun p => (p.1.h, p.1.theta, p.1.sink, p.2)) =
    (solve_water_flow matUnit {} { h := [1], theta := [2], T := some [7] }).map
      (fun p => (p.1.h, p.1.theta, p.1.sink, p.2)) :=
  water_flow_deterministic matUnit {}
    { h := [1], theta := [2], c := some [9], t := 5 }
    { h := [1], theta := [2], T := some [7] } rfl rfl rfl rfl

/-- Claim C5 (amended): the sink profile is freshly computed only when no
sink array sits on the state — a caller-supplied (or previously cached)
array is returned unchanged — and `solve_water_flow` caches the sink it
used onto the state it returns, so in an orchestrated run the array
computed at the first uptake step is reused, not re-evaluated against the
current heads, from the second step on. -/
theorem sink_override_and_cached :
    (∀ cfg s S, s.sink = some S → build_sink_profile cfg s = S) ∧
    (∀ mat cfg s s2 r, solve_water_flow mat cfg s = .ok (s2, r) →
      s2.sink = some (build_sink_profile cfg s) ∧
      r.sink = build_sink_profile cfg s) := by
  constructor
  · intro cfg s S hs
    simp [build_sink_profile, hs]
  · intro mat cfg s s2 r hok
    simp only [solve_water_flow] at hok
    rw [exmap_ok] at hok
    obtain ⟨st, _, h2⟩ := hok
    rw [Prod.mk.injEq] at h2
    obtain ⟨h2a, h2b⟩ := h2
    subst h2a h2b
    exact ⟨rfl, rfl⟩

/-- Witness for C5 (amended): a state with a cached sink array returns it
unchanged, and the concrete two-step scenario's first step caches the sink
it used. -/
theorem sink_override_and_cached_witness :
    build_sink_profile sinkCacheCfg
      { h := [-20, -20], theta := [0, 0], sink := some [7, 8] } = [7, 8] :=
  sink_override_and_cached.1 sinkCacheCfg
    { h := [-20, -20], theta := [0, 0], sink := some [7, 8] } [7, 8] rfl

/-- Counterexample to C5 as stated: in the concrete scenario, after the
first water-flow step the state carries the cached sink, and the sink the
solver uses at the second step (the cached array) differs from a fresh
computation against the second step's head field — the Feddes stress
factor stays frozen at its first-step value. -/
theorem sink_not_recomputed_cex :
    build_sink_profile sinkCacheCfg sinkCacheState2 ≠
      build_sink_profile sinkCacheCfg { sinkCacheState2 with sink := none } := by
  norm_num [sinkCacheState2, sinkCacheState, sinkCacheCfg, matUnit,
    solve_water_flow, build_sink_profile, newtonLoop, newtonStep, watSystem,
    solve_tridiagonal, fwdSweep, backSub, zip4, infNorm, rabs, pymax,
    feddes_alpha, eps12, eps18, Except.map, List.ofFn_succ, List.getD_cons_zero,
    List.getD_cons_succ]

/-- Claim C3: abort-on-failure semantics of the time loop — while the loop
condition holds, (i) a water-solver failure ends the run at once with one
diagnostic tagged with the current simulated time and the failure text,
returning the accumulators as they stand, for any remaining fuel and any
solute/heat solvers (which are never consulted); (ii) a solute failure,
after water succeeded on the threaded state, does the same for any heat
solver; (iii) a heat failure, after water and solute, likewise; (iv) when
all enabled phases succeed — water first, then solute on water's state,
then heat on solute's state — the loop advances time by `dt`, appends the
per-step record and the `save_every`-gated nodal series, and recurses; no
diagnostic is recorded. -/
theorem run_loop_abort (cfg : Config) (water : StepSolver)
    (solute heat : Option StepSolver) :
    (∀ fuel t s step tl ns cs ts msgs e, t < cfg.t_end - eps12 →
      water s = .error e →
      runLoop cfg water solute heat (fuel + 1) t s step tl ns cs ts msgs =
        ⟨tl, ns, cs, ts, msgs ++ [⟨t, .water, e⟩]⟩) ∧
    (∀ fuel t s step tl ns cs ts msgs s1 hw f e, t < cfg.t_end - eps12 →
      water s = .ok (s1, hw) → solute = some f → f s1 = .error e →
      runLoop cfg water solute heat (fuel + 1) t s step tl ns cs ts msgs =
        ⟨tl, ns, cs, ts, msgs ++ [⟨t, .solute, e⟩]⟩) ∧
    (∀ fuel t s step tl ns cs ts msgs s1 hw s2 rc g e, t < cfg.t_end - eps12 →
      water s = .ok (s1, hw) → stepOpt solute s1 = .ok (s2, rc) →
      heat = some g → g s2 = .error e →
      runLoop cfg water solute heat (fuel + 1) t s step tl ns cs ts msgs =
        ⟨tl, ns, cs, ts, msgs ++ [⟨t, .heat, e⟩]⟩) ∧
    (∀ fuel t s step tl ns cs ts msgs s1 hw s2 rc s3 rT, t < cfg.t_end - eps12 →
      water s = .ok (s1, hw) → stepOpt solute s1 = .ok (s2, rc) →
      stepOpt heat s2 = .ok (s3, rT) →
      runLoop cfg water solute heat (fuel + 1) t s step tl ns cs ts msgs =
        runLoop cfg water solute heat fuel (t + cfg.dt) { s3 with t := t + cfg.dt }
          (step + 1)
          (tl ++ [⟨step + 1, t + cfg.dt, hw.getD 0 0, hw.getD (hw.length / 2) 0,
                   hw.getLastD 0⟩])
          (if (step + 1) % cfg.save_every = 0 then ns ++ [(t + cfg.dt, hw)] else ns)
          (if (step + 1) % cfg.save_every = 0 then
              match rc with
              | some cArr => cs ++ [(t + cfg.dt, cArr)]
              | none => cs
            else cs)
          (if (step + 1) % cfg.save_every = 0 then
              match rT with
              | some tArr => ts ++ [(t + cfg.dt, tArr)]
              | none => ts
            else ts)
          msgs) := by
  refine ⟨?_, ?_, ?_, ?_⟩
  · intro fuel t s step tl ns cs ts msgs e ht hw
    simp only [runLoop]
    rw [if_pos ht, hw]
  · intro fuel t s step tl ns cs ts msgs s1 hw f e ht hw1 hsol hf
    simp only [runLoop]
    rw [if_pos ht, hw1]
    simp only [stepOpt, hsol, hf, Except.map]
  · intro fuel t s step tl ns cs ts msgs s1 hw s2 rc g e ht hw1 hsol hheat hg
    simp only [runLoop]
    rw [if_pos ht, hw1]
    simp only [hsol]
    rw [hheat]
    simp only [stepOpt, hg, Except.map]
  · intro fuel t s step tl ns cs ts msgs s1 hw s2 rc s3 rT ht hw1 hsol hheat
    simp only [runLoop]
    rw [if_pos ht, hw1]
    simp only [hsol, hheat]

/-- Witness for C3: a water solver that always fails makes the default-cfg
run return empty series and the single tagged diagnostic at `t = 0`. -/
theorem run_loop_abort_witness :
    runLoop {} (fun _ => .error "boom") none none 1 0
        { h := [1], theta := [1] } 0 [] [] [] [] [] =
      ⟨[], [], [], [], [⟨0, .water, "boom"⟩]⟩ :=
  (run_loop_abort {} (fun _ => .error "boom") none none).1 0 0
    { h := [1], theta := [1] } 0 [] [] [] [] [] "boom"
    (by norm_num [eps12]) rfl

theorem readArr_set_ne (σ : Store) (r r2 : Nat) (v : Arr) (hne : r ≠ r2) :
    readArr (σ.set r v) r2 = readArr σ r2 := by
  simp [readArr, List.getElem?_set_ne hne]

theorem readArr_append_left (σ : Store) (l : List Arr) (r : Nat) (hr : r < σ.length) :
    readArr (σ ++ l) r = readArr σ r := by
  simp [readArr, List.getElem?_append, hr]

theorem writeElem_frame (σ : Store) (r i : Nat) (v : ℚ) (r2 : Nat) (hne : r2 ≠ r) :
    readArr (writeElem σ r i v) r2 = readArr σ r2 := by
  rw [writeElem]
  exact readArr_set_ne _ _ _ _ (fun h => hne h.symm)

theorem writeElem_length (σ : Store) (r i : Nat) (v : ℚ) :
    (writeElem σ r i v).length = σ.length := by
  simp [writeElem]

theorem fwdLoopH_length (ra rb rc rd : Nat) :
    ∀ steps i σ σ2, fwdLoopH ra rb rc rd steps i σ = .ok σ2 →
      σ2.length = σ.length := by
  intro steps
  induction steps with
  | zero =>
    intro i σ σ2 h
    simp only [fwdLoopH] at h
    cases h
    rfl
  | succ steps ih =>
    intro i σ σ2 h
    simp only [fwdLoopH] at h
    split at h
    · cases h
    · rw [ih _ _ _ h, writeElem_length, writeElem_length]

theorem fwdLoopH_frame (ra rb rc rd : Nat) :
    ∀ steps i σ σ2, fwdLoopH ra rb rc rd steps i σ = .ok σ2 →
      ∀ m, m ≤ rb → m ≤ rd → ∀ r, r < m → readArr σ2 r = readArr σ r := by
  intro steps
  induction steps with
  | zero =>
    intro i σ σ2 h m _ _ r _
    simp only [fwdLoopH] at h
    cases h
    rfl
  | succ steps ih =>
    intro i σ σ2 h m hmb hmd r hr
    simp only [fwdLoopH] at h
    split at h
    · cases h
    · rw [ih _ _ _ h m hmb hmd r hr,
        writeElem_frame _ _ _ _ _ (Nat.ne_of_lt (Nat.lt_of_lt_of_le hr hmd)),
        writeElem_frame _ _ _ _ _ (Nat.ne_of_lt (Nat.lt_of_lt_of_le hr hmb))]

theorem backLoopH_length (rb rc rd rx : Nat) :
    ∀ steps i σ σ2, backLoopH rb rc rd rx steps i σ = .ok σ2 →
      σ2.length = σ.length := by
  intro steps
  induction steps with
  | zero =>
    intro i σ σ2 h
    simp only [backLoopH] at h
    cases h
    rfl
  | succ steps ih =>
    intro i σ σ2 h
    simp only [backLoopH] at h
    split at h
    · cases h
    · rw [ih _ _ _ h, writeElem_length]

theorem backLoopH_frame (rb rc rd rx : Nat) :
    ∀ steps i σ σ2, backLoopH rb rc rd rx steps i σ = .ok σ2 →
      ∀ m, m ≤ rx → ∀ r, r < m → readArr σ2 r = readArr σ r := by
  intro steps
  induction steps with
  | zero =>
    intro i σ σ2 h m _ r _
    simp only [backLoopH] at h
    cases h
    rfl
  | succ steps ih =>
    intro i σ σ2 h m hmx r hr
    simp only [backLoopH] at h
    split at h
    · cases h
    · rw [ih _ _ _ h m hmx r hr,
        writeElem_frame _ _ _ _ _ (Nat.ne_of_lt (Nat.lt_of_lt_of_le hr hmx))]

/-- Claim C8: `solve_tridiagonal` has no externally visible side effect —
run as the heap program it is (caller arrays dereferenced, scratch copies
allocated, elimination mutating only the scratch and solution objects), a
successful call leaves every pre-existing array object, in particular the
caller's `a`, `b`, `c`, `d`, holding exactly its prior value, and hands
back a freshly allocated solution object. -/
theorem solve_tridiagonal_heap_frame (σ : Store) (ra rb rc rd : Nat)
    (σ2 : Store) (rx : Nat)
    (ha : ra < σ.length) (hb : rb < σ.length) (hc : rc < σ.length)
    (hd : rd < σ.length)
    (hok : solve_tridiagonal_heap σ ra rb rc rd = .ok (σ2, rx)) :
    σ.length ≤ rx ∧
    readArr σ2 ra = readArr σ ra ∧ readArr σ2 rb = readArr σ rb ∧
    readArr σ2 rc = readArr σ rc ∧ readArr σ2 rd = readArr σ rd := by
  have hframe : σ.length ≤ rx ∧ ∀ r, r < σ.length → readArr σ2 r = readArr σ r := by
    simp only [solve_tridiagonal_heap, alloc] at hok
    split at hok
    case isFalse => cases hok
    case isTrue hlen =>
    split at hok
    case h_1 => cases hok
    case h_2 σ5 hfwd =>
    split at hok
    case isTrue => cases hok
    case isFalse hn0 =>
    split at hok
    case isTrue => cases hok
    case isFalse hpiv =>
    split at hok
    case h_1 => cases hok
    case h_2 σ8 hback =>
    cases hok
    have hlen5 := fwdLoopH_length _ _ _ _ _ _ _ _ hfwd
    simp only [List.length_append, List.length_cons, List.length_nil] at hlen5
    constructor
    · omega
    · intro r hr
      rw [backLoopH_frame _ _ _ _ _ _ _ _ hback σ.length (by omega) r hr,
        writeElem_frame _ _ _ _ _ (by omega),
        readArr_append_left _ _ _ (by omega),
        fwdLoopH_frame _ _ _ _ _ _ _ _ hfwd σ.length (by simp) (by simp) r hr,
        readArr_append_left _ _ _ (by simp; omega),
        readArr_append_left _ _ _ (by simp; omega),
        readArr_append_left _ _ _ (by simpa using Nat.lt_succ_of_lt hr),
        readArr_append_left _ _ _ hr]
  exact ⟨hframe.1, hframe.2 ra ha, hframe.2 rb hb, hframe.2 rc hc, hframe.2 rd hd⟩

theorem ofFn_head {n : Nat} (f : Fin n → ℚ) (hn : 0 < n) :
    (List.ofFn f).head? = some (f ⟨0, hn⟩) := by
  rw [List.head?_eq_getElem?, ← List.get?_eq_getElem?, List.get?_ofFn]
  simp [List.ofFnNthVal, hn]

theorem ofFn_getLast {n : Nat} (f : Fin n → ℚ) (hn : 0 < n) :
    (List.ofFn f).getLast? = some (f ⟨n - 1, Nat.sub_lt hn Nat.one_pos⟩) := by
  rw [List.getLast?_eq_getElem?, ← List.get?_eq_getElem?, List.length_ofFn,
    List.get?_ofFn]
  simp [List.ofFnNthVal, Nat.sub_lt hn Nat.one_pos]

theorem solve_tridiagonal_top (a b c d : Arr) (x : Arr)
    (hb : b.head? = some 1) (hc : c.head? = some 0)
    (hok : solve_tridiagonal a b c d = .ok x) : x.head? = d.head? := by
  cases b with
  | nil => simp at hb
  | cons b0 btl =>
  cases c with
  | nil => simp at hc
  | cons c0 ctl =>
  simp only [List.head?_cons, Option.some.injEq] at hb hc
  subst hb hc
  cases d with
  | nil =>
    simp only [solve_tridiagonal] at hok
    split at hok
    · cases hok
    · cases hok
  | cons d0 dtl =>
  simp only [solve_tridiagonal] at hok
  split at hok
  case isFalse => cases hok
  case isTrue hlen =>
  split at hok
  case h_1 => cases hok
  case h_2 out hfwd =>
  rw [List.zipWith_cons_cons] at hok
  rw [backSub_head _ _ _ hok]
  rfl

theorem solve_tridiagonal_bottom (a b c d : Arr) (x : Arr)
    (hla : a.length = b.length) (hlc : c.length = b.length)
    (hld : d.length = b.length) (hn : 2 ≤ b.length)
    (ha : a.getLast? = some 0) (hb : b.getLast? = some 1)
    (hok : solve_tridiagonal a b c d = .ok x) : x.getLast? = d.getLast? := by
  cases b with
  | nil => simp at hn
  | cons b0 btl =>
  cases d with
  | nil =>
    rw [List.length_nil] at hld
    omega
  | cons d0 dtl =>
  simp only [solve_tridiagonal] at hok
  split at hok
  case isFalse => cases hok
  case isTrue hlen =>
  split at hok
  case h_1 => cases hok
  case h_2 out hfwd =>
  have hbtl : btl ≠ [] := by
    intro hemp
    subst hemp
    simp at hn
  have hdn : 2 ≤ (d0 :: dtl).length := by
    rw [hld]
    exact hn
  have hdtl : dtl ≠ [] := by
    intro hemp
    subst hemp
    simp at hdn
  have hrowlen : (zip4 (a.drop 1) ((b0 :: btl).drop 1)
      (c.take ((b0 :: btl).length - 1)) ((d0 :: dtl).drop 1)).length =
      (b0 :: btl).length - 1 := by
    apply zip4_length
    · simp [hla]
    · simp
    · rw [List.length_take, hlc]
      simp
    · simp only [List.length_drop, hld]
  have hcne : c.take ((b0 :: btl).length - 1) ≠ [] := by
    intro hemp
    have hlent := congrArg List.length hemp
    rw [List.length_take, hlc, List.length_nil] at hlent
    rw [Nat.min_eq_left (by omega)] at hlent
    omega
  obtain ⟨cv, hcv⟩ : ∃ v, (c.take ((b0 :: btl).length - 1)).getLast? = some v := by
    cases hq : (c.take ((b0 :: btl).length - 1)).getLast? with
    | none => exact absurd (List.getLast?_eq_none_iff.mp hq) hcne
    | some v => exact ⟨v, rfl⟩
  have hadrop : (a.drop 1).getLast? = a.getLast? := by
    cases a with
    | nil => simp at hla
    | cons a0 atl =>
      cases atl with
      | nil =>
        simp only [List.length_cons, List.length_nil] at hla hn
        omega
      | cons a1 arest => simp [List.getLast?_cons_cons]
  have hbdrop : ((b0 :: btl).drop 1).getLast? = (b0 :: btl : Arr).getLast? := by
    cases btl with
    | nil => exact absurd rfl hbtl
    | cons b1 brest => simp [List.getLast?_cons_cons]
  have hddrop : ((d0 :: dtl).drop 1).getLast? = (d0 :: dtl : Arr).getLast? := by
    cases dtl with
    | nil => exact absurd rfl hdtl
    | cons d1 drest => simp [List.getLast?_cons_cons]
  obtain ⟨dl, hdl⟩ : ∃ v, (d0 :: dtl : Arr).getLast? = some v := ⟨_, rfl⟩
  have hrowlast : (zip4 (a.drop 1) ((b0 :: btl).drop 1)
      (c.take ((b0 :: btl).length - 1)) ((d0 :: dtl).drop 1)).getLast? =
      some (0, 1, cv, dl) := by
    apply zip4_getLast
    · simp [hla]
    · rw [List.length_drop, List.length_take, hla, hlc]
      omega
    · rw [List.length_drop, List.length_drop, hla, hld]
    · rw [hadrop, ha]
    · rw [hbdrop, hb]
    · exact hcv
    · rw [hddrop, hdl]
  have houtlast := fwd_getLast _ _ _ _ _ _ _ hfwd hrowlast
  have houtlen := fwd_ok_length _ _ _ _ hfwd
  have houtne : out ≠ [] := by
    intro hemp
    rw [hemp, hrowlen] at houtlen
    simp only [List.length_nil] at houtlen
    omega
  have hbdlast : ((b0, d0) :: out).getLast? = some ((1 : ℚ), dl) := by
    cases out with
    | nil => exact absurd rfl houtne
    | cons o1 orest =>
      rw [List.getLast?_cons_cons]
      exact houtlast
  have hbdlen : ((b0, d0) :: out).length = c.length := by
    rw [List.length_cons, houtlen, hrowlen, hlc]
    omega
  have hcne2 : c ≠ [] := by
    intro hemp
    rw [hemp, List.length_nil] at hlc
    omega
  obtain ⟨cl2, hcl2⟩ : ∃ v, c.getLast? = some v := by
    cases hq : c.getLast? with
    | none => exact absurd (List.getLast?_eq_none_iff.mp hq) hcne2
    | some v => exact ⟨v, rfl⟩
  have hrows3 := zipWith_pair_getLast _ _ ((1 : ℚ), dl) cl2 hbdlen hbdlast hcl2
  have hx := backSub_getLast _ _ _ _ _ hok hrows3
  rw [hx, hdl]
  simp

theorem soluteSystem_rows (cfg : Config) (cOld theta qInt dInt : Arr)
    (hn : 2 ≤ cfg.NumNP) :
    (soluteSystem cfg cOld theta qInt dInt).2.1.head? = some 1 ∧
    (soluteSystem cfg cOld theta qInt dInt).2.2.1.head? = some 0 ∧
    (soluteSystem cfg cOld theta qInt dInt).1.getLast? = some 0 ∧
    (soluteSystem cfg cOld theta qInt dInt).2.1.getLast? = some 1 ∧
    (soluteSystem cfg cOld theta qInt dInt).2.2.2.head? =
      some (match cfg.c_top with | some v => v | none => cOld.getD 0 0) ∧
    (soluteSystem cfg cOld theta qInt dInt).2.2.2.getLast? =
      some (if cfg.bc_c_bot_dirichlet then cfg.c_bot
            else cOld.getD (cfg.NumNP - 1) 0) := by
  have h0 : (0 : Nat) < cfg.NumNP := by omega
  have hne : (0 : Nat) ≠ cfg.NumNP - 1 := by omega
  have hni : ¬ (1 ≤ cfg.NumNP - 1 ∧ cfg.NumNP - 1 ≤ cfg.NumNP - 2) := by omega
  refine ⟨?_, ?_, ?_, ?_, ?_, ?_⟩
  · simp only [soluteSystem]
    rw [ofFn_head _ h0]
    simp [hne]
  · simp only [soluteSystem]
    rw [ofFn_head _ h0]
    simp
  · simp only [soluteSystem]
    rw [ofFn_getLast _ h0]
    simp [hni]
    intro h1 h2
    exfalso
    omega
  · simp only [soluteSystem]
    rw [ofFn_getLast _ h0]
    simp
  · simp only [soluteSystem]
    rw [ofFn_head _ h0]
    simp [hne]
  · simp only [soluteSystem]
    rw [ofFn_getLast _ h0]
    simp

theorem soluteSystem_lengths (cfg : Config) (cOld theta qInt dInt : Arr) :
    (soluteSystem cfg cOld theta qInt dInt).1.length = cfg.NumNP ∧
    (soluteSystem cfg cOld theta qInt dInt).2.1.length = cfg.NumNP ∧
    (soluteSystem cfg cOld theta qInt dInt).2.2.1.length = cfg.NumNP ∧
    (soluteSystem cfg cOld theta qInt dInt).2.2.2.length = cfg.NumNP := by
  simp [soluteSystem]

theorem heatSystem_rows (cfg : Config) (tOld cTh qInt lamEff : Arr)
    (hn : 2 ≤ cfg.NumNP) :
    (heatSystem cfg tOld cTh qInt lamEff).2.1.head? = some 1 ∧
    (heatSystem cfg tOld cTh qInt lamEff).2.2.1.head? = some 0 ∧
    (heatSystem cfg tOld cTh qInt lamEff).1.getLast? = some 0 ∧
    (heatSystem cfg tOld cTh qInt lamEff).2.1.getLast? = some 1 ∧
    (heatSystem cfg tOld cTh qInt lamEff).2.2.2.head? =
      some (match cfg.T_top with | some v => v | none => tOld.getD 0 0) ∧
    (heatSystem cfg tOld cTh qInt lamEff).2.2.2.getLast? =
      some (if cfg.bc_T_bot_dirichlet then cfg.T_bot
            else tOld.getD (cfg.NumNP - 1) 0) := by
  have h0 : (0 : Nat) < cfg.NumNP := by omega
  have hne : (0 : Nat) ≠ cfg.NumNP - 1 := by omega
  have hni : ¬ (1 ≤ cfg.NumNP - 1 ∧ cfg.NumNP - 1 ≤ cfg.NumNP - 2) := by omega
  refine ⟨?_, ?_, ?_, ?_, ?_, ?_⟩
  · simp only [heatSystem]
    rw [ofFn_head _ h0]
    simp [hne]
  · simp only [heatSystem]
    rw [ofFn_head _ h0]
    simp
  · simp only [heatSystem]
    rw [ofFn_getLast _ h0]
    simp [hni]
    intro h1 h2
    exfalso
    omega
  · simp only [heatSystem]
    rw [ofFn_getLast _ h0]
    simp
  · simp only [heatSystem]
    rw [ofFn_head _ h0]
    simp [hne]
  · simp only [heatSystem]
    rw [ofFn_getLast _ h0]
    simp

theorem heatSystem_lengths (cfg : Config) (tOld cTh qInt lamEff : Arr) :
    (heatSystem cfg tOld cTh qInt lamEff).1.length = cfg.NumNP ∧
    (heatSystem cfg tOld cTh qInt lamEff).2.1.length = cfg.NumNP ∧
    (heatSystem cfg tOld cTh qInt lamEff).2.2.1.length = cfg.NumNP ∧
    (heatSystem cfg tOld cTh qInt lamEff).2.2.2.length = cfg.NumNP := by
  simp [heatSystem]

theorem soluteSolve_boundary (cfg : Config) (cOld theta qInt dInt : Arr) (x : Arr)
    (hn : 2 ≤ cfg.NumNP)
    (hok : solve_tridiagonal (soluteSystem cfg cOld theta qInt dInt).1
      (soluteSystem cfg cOld theta qInt dInt).2.1
      (soluteSystem cfg cOld theta qInt dInt).2.2.1
      (soluteSystem cfg cOld theta qInt dInt).2.2.2 = .ok x) :
    x.head? = some (match cfg.c_top with | some v => v | none => cOld.getD 0 0) ∧
    x.getLast? = some (if cfg.bc_c_bot_dirichlet then cfg.c_bot
      else cOld.getD (cfg.NumNP - 1) 0) := by
  obtain ⟨hB, hC, hA, hBl, hRh, hRl⟩ := soluteSystem_rows cfg cOld theta qInt dInt hn
  obtain ⟨hl1, hl2, hl3, hl4⟩ := soluteSystem_lengths cfg cOld theta qInt dInt
  constructor
  · rw [solve_tridiagonal_top _ _ _ _ _ hB hC hok, hRh]
  · rw [solve_tridiagonal_bottom _ _ _ _ _ (by rw [hl1, hl2]) (by rw [hl3, hl2])
      (by rw [hl4, hl2]) (by rw [hl2]; exact hn) hA hBl hok, hRl]

theorem heatSolve_boundary (cfg : Config) (tOld cTh qInt lamEff : Arr) (x : Arr)
    (hn : 2 ≤ cfg.NumNP)
    (hok : solve_tridiagonal (heatSystem cfg tOld cTh qInt lamEff).1
      (heatSystem cfg tOld cTh qInt lamEff).2.1
      (heatSystem cfg tOld cTh qInt lamEff).2.2.1
      (heatSystem cfg tOld cTh qInt lamEff).2.2.2 = .ok x) :
    x.head? = some (match cfg.T_top with | some v => v | none => tOld.getD 0 0) ∧
    x.getLast? = some (if cfg.bc_T_bot_dirichlet then cfg.T_bot
      else tOld.getD (cfg.NumNP - 1) 0) := by
  obtain ⟨hB, hC, hA, hBl, hRh, hRl⟩ := heatSystem_rows cfg tOld cTh qInt lamEff hn
  obtain ⟨hl1, hl2, hl3, hl4⟩ := heatSystem_lengths cfg tOld cTh qInt lamEff
  constructor
  · rw [solve_tridiagonal_top _ _ _ _ _ hB hC hok, hRh]
  · rw [solve_tridiagonal_bottom _ _ _ _ _ (by rw [hl1, hl2]) (by rw [hl3, hl2])
      (by rw [hl4, hl2]) (by rw [hl2]; exact hn) hA hBl hok, hRl]

/-- Claim C10: the assembled rows `0` and `NumNP - 1` of both transport
systems are exact identity rows — unit diagonal, zero sub/super-diagonal —
so on a successful solve the returned top value equals exactly the
configured Dirichlet value (`c_top` / `T_top`) when given and the
prior-step top value otherwise, and the returned bottom value equals
exactly `c_bot` / `T_bot` under the Dirichlet bottom option and the
prior-step bottom value otherwise, with no influence from the interior
solution. -/
theorem transport_boundary_rows (mat : MatModel) (cfg : Config) (s : SimState)
    (hn : 2 ≤ cfg.NumNP) :
    (∀ cOld theta qInt dInt,
      (soluteSystem cfg cOld theta qInt dInt).2.1.head? = some 1 ∧
      (soluteSystem cfg cOld theta qInt dInt).2.2.1.head? = some 0 ∧
      (soluteSystem cfg cOld theta qInt dInt).1.getLast? = some 0 ∧
      (soluteSystem cfg cOld theta qInt dInt).2.1.getLast? = some 1) ∧
    (∀ tOld cTh qInt lamEff,
      (heatSystem cfg tOld cTh qInt lamEff).2.1.head? = some 1 ∧
      (heatSystem cfg tOld cTh qInt lamEff).2.2.1.head? = some 0 ∧
      (heatSystem cfg tOld cTh qInt lamEff).1.getLast? = some 0 ∧
      (heatSystem cfg tOld cTh qInt lamEff).2.1.getLast? = some 1) ∧
    (∀ s2 res, solve_solute_transport mat cfg s = .ok (s2, res) →
      res.c.head? = some (match cfg.c_top with
        | some v => v
        | none => (s.c.getD (List.replicate cfg.NumNP 0)).getD 0 0) ∧
      res.c.getLast? = some (if cfg.bc_c_bot_dirichlet then cfg.c_bot
        else (s.c.getD (List.replicate cfg.NumNP 0)).getD (cfg.NumNP - 1) 0)) ∧
    (∀ s2 res, solve_heat_transport mat cfg s = .ok (s2, res) →
      res.T.head? = some (match cfg.T_top with
        | some v => v
        | none => (s.T.getD (List.replicate cfg.NumNP 20)).getD 0 0) ∧
      res.T.getLast? = some (if cfg.bc_T_bot_dirichlet then cfg.T_bot
        else (s.T.getD (List.replicate cfg.NumNP 20)).getD (cfg.NumNP - 1) 0)) := by
  refine ⟨?_, ?_, ?_, ?_⟩
  · intro cOld theta qInt dInt
    obtain ⟨hB, hC, hA, hBl, _, _⟩ := soluteSystem_rows cfg cOld theta qInt dInt hn
    exact ⟨hB, hC, hA, hBl⟩
  · intro tOld cTh qInt lamEff
    obtain ⟨hB, hC, hA, hBl, _, _⟩ := heatSystem_rows cfg tOld cTh qInt lamEff hn
    exact ⟨hB, hC, hA, hBl⟩
  · intro s2 res hok
    simp only [solve_solute_transport] at hok
    rw [exmap_ok] at hok
    obtain ⟨cNew, hsolve, heq⟩ := hok
    rw [Prod.mk.injEq] at heq
    obtain ⟨heq1, heq2⟩ := heq
    subst heq2
    exact soluteSolve_boundary cfg _ _ _ _ _ hn hsolve
  · intro s2 res hok
    simp only [solve_heat_transport] at hok
    rw [exmap_ok] at hok
    obtain ⟨tNew, hsolve, heq⟩ := hok
    rw [Prod.mk.injEq] at heq
    obtain ⟨heq1, heq2⟩ := heq
    subst heq2
    exact heatSolve_boundary cfg _ _ _ _ _ hn hsolve

/-- Witness for C10: on a concrete two-node solute problem with `c_top = 9`
and Dirichlet bottom `c_bot = 4`, the returned concentration is exactly
`[9, 4]`; the heat system's boundary rows at a concrete instance are
identity rows. -/
theorem transport_boundary_rows_witness :
    (∃ s2 res, solve_solute_transport matUnit
        { NumNP := 2, c_top := some 9, bc_c_bot_dirichlet := true, c_bot := 4 }
        { h := [0, 0], theta := [1, 1], c := some [5, 6] } = .ok (s2, res) ∧
      res.c.head? = some 9 ∧ res.c.getLast? = some 4) ∧
    (heatSystem { NumNP := 2 } [20, 20] [1, 1] [0] [1]).2.1.head? = some 1 ∧
    (heatSystem { NumNP := 2 } [20, 20] [1, 1] [0] [1]).2.1.getLast? = some 1 := by
  have hok : solve_solute_transport matUnit
      { NumNP := 2, c_top := some 9, bc_c_bot_dirichlet := true, c_bot := 4 }
      { h := [0, 0], theta := [1, 1], c := some [5, 6] } =
      .ok ({ h := [0, 0], theta := [1, 1], c := some [9, 4] },
           ⟨[9, 4], [0], [1 / 1000]⟩) := by
    norm_num [solve_solute_transport, soluteSystem, solve_tridiagonal, fwdSweep,
      backSub, zip4, matUnit, rabs, pymax, eps12, eps18, Except.map,
      List.ofFn_succ]
  have hval := ((transport_boundary_rows matUnit
      { NumNP := 2, c_top := some 9, bc_c_bot_dirichlet := true, c_bot := 4 }
      { h := [0, 0], theta := [1, 1], c := some [5, 6] } (by norm_num)).2.2.1) _ _ hok
  have hrows := (transport_boundary_rows matUnit { NumNP := 2 }
      { h := [0, 0], theta := [1, 1] } (by norm_num)).2.1 [20, 20] [1, 1] [0] [1]
  exact ⟨⟨_, _, hok, hval.1, hval.2⟩, hrows.1, hrows.2.2.2⟩

/-- Witness for C8: a concrete heap holding the four caller arrays of a
2-node system; after the call every caller array reads back unchanged and
the returned solution reference is fresh. -/
theorem solve_tridiagonal_heap_frame_witness :
    ∃ s2 rx, solve_tridiagonal_heap [[0, 0], [1, 1], [0, 0], [5, 7]] 0 1 2 3 =
        .ok (s2, rx) ∧
      ([[0, 0], [1, 1], [0, 0], [5, 7]] : Store).length ≤ rx ∧
      readArr s2 0 = readArr [[0, 0], [1, 1], [0, 0], [5, 7]] 0 ∧
      readArr s2 1 = readArr [[0, 0], [1, 1], [0, 0], [5, 7]] 1 ∧
      readArr s2 2 = readArr [[0, 0], [1, 1], [0, 0], [5, 7]] 2 ∧
      readArr s2 3 = readArr [[0, 0], [1, 1], [0, 0], [5, 7]] 3 := by
  have hok : solve_tridiagonal_heap [[0, 0], [1, 1], [0, 0], [5, 7]] 0 1 2 3 =
      .ok ([[0, 0], [1, 1], [0, 0], [5, 7], [0, 0], [1, 1], [0, 0], [5, 7], [5, 7]], 8) := by
    norm_num [solve_tridiagonal_heap, alloc, fwdLoopH, backLoopH, writeElem,
      readArr, rabs, eps18, List.replicate_succ]
  have h := solve_tridiagonal_heap_frame [[0, 0], [1, 1], [0, 0], [5, 7]] 0 1 2 3 _ _
    (by norm_num) (by norm_num) (by norm_num) (by norm_num) hok
  exact ⟨_, _, hok, h.1, h.2.1, h.2.2.1, h.2.2.2.1, h.2.2.2.2⟩

theorem rabs_of_nonneg (x : ℚ) (hx : 0 ≤ x) : rabs x = x := by
  rw [rabs, if_neg (not_lt.mpr hx)]

theorem getD_replicate (n i : Nat) (x d : ℚ) (h : i < n) :
    (List.replicate n x).getD i d = x := by
  rw [List.getD_eq_getElem _ _ (by simpa using h)]
  simp

theorem ofFn_three_band_aux (m : Nat) (y A : ℚ) :
    ∀ x : ℚ, List.ofFn (fun i : Fin (m + 2) =>
      if i.1 = m + 1 then y else if i.1 = 0 then x else A) =
      x :: (List.replicate m A ++ [y]) := by
  induction m with
  | zero =>
    intro x
    simp [List.ofFn_succ]
  | succ m ih =>
    intro x
    rw [List.ofFn_succ]
    simp only [Fin.val_zero, Fin.val_succ]
    rw [if_neg (by omega), if_true, List.replicate_succ, List.cons_append]
    congr 1
    rw [← ih A]
    apply congrArg
    funext i
    by_cases h1 : i.1 = m + 1
    · rw [if_pos (by omega), if_pos h1]
    · rw [if_neg (by omega), if_neg (by omega), if_neg h1]
      rw [ite_self]

theorem ofFn_three_band (n : Nat) (hn : 2 ≤ n) (x y A : ℚ) :
    List.ofFn (fun i : Fin n => if i.1 = n - 1 then y else if i.1 = 0 then x else A) =
      x :: (List.replicate (n - 2) A ++ [y]) := by
  obtain ⟨m, rfl⟩ : ∃ m, n = m + 2 := ⟨n - 2, by omega⟩
  have hm1 : m + 2 - 1 = m + 1 := by omega
  have hm2 : m + 2 - 2 = m := by omega
  rw [hm1, hm2]
  exact ofFn_three_band_aux m y A x

theorem zip4_replicate (k : Nat) (a b c d : ℚ) :
    zip4 (List.replicate k a) (List.replicate k b) (List.replicate k c)
      (List.replicate k d) = List.replicate k (a, b, c, d) := by
  induction k with
  | zero => rfl
  | succ k ih => simp only [List.replicate_succ, zip4, ih]

theorem zip4_append (as1 : Arr) :
    ∀ bs1 cs1 ds1 as2 bs2 cs2 ds2 : Arr, ∀ k : Nat,
      as1.length = k → bs1.length = k → cs1.length = k → ds1.length = k →
      zip4 (as1 ++ as2) (bs1 ++ bs2) (cs1 ++ cs2) (ds1 ++ ds2) =
        zip4 as1 bs1 cs1 ds1 ++ zip4 as2 bs2 cs2 ds2 := by
  induction as1 with
  | nil =>
    intro bs1 cs1 ds1 as2 bs2 cs2 ds2 k h1 h2 h3 h4
    rw [List.length_nil] at h1
    subst h1
    have : bs1 = [] := List.eq_nil_of_length_eq_zero h2
    have hc : cs1 = [] := List.eq_nil_of_length_eq_zero h3
    have hd : ds1 = [] := List.eq_nil_of_length_eq_zero h4
    subst this hc hd
    simp [zip4]
  | cons a1 as1 ih =>
    intro bs1 cs1 ds1 as2 bs2 cs2 ds2 k h1 h2 h3 h4
    cases bs1 with
    | nil => rw [← h1] at h2; simp at h2
    | cons b1 bs1 =>
      cases cs1 with
      | nil => rw [← h1] at h3; simp at h3
      | cons c1 cs1 =>
        cases ds1 with
        | nil => rw [← h1] at h4; simp at h4
        | cons d1 ds1 =>
          cases k with
          | zero => simp at h1
          | succ k =>
            simp only [List.length_cons, Nat.succ.injEq] at h1 h2 h3 h4
            simp only [List.cons_append, zip4]
            exact congrArg _ (ih bs1 cs1 ds1 as2 bs2 cs2 ds2 k h1 h2 h3 h4)

theorem zipWith_add_replicate_zero (l : Arr) :
    List.zipWith (· + ·) l (List.replicate l.length 0) = l := by
  induction l with
  | nil => rfl
  | cons a l ih =>
    simp only [List.length_cons, List.replicate_succ, List.zipWith_cons_cons, add_zero]
    rw [ih]

theorem infNorm_replicate_zero (n : Nat) : infNorm (List.replicate n 0) = 0 := by
  induction n with
  | zero => rfl
  | succ n ih =>
    simp only [infNorm, List.replicate_succ, List.map_cons, List.foldr_cons] at ih ⊢
    rw [ih]
    norm_num [rabs, pymax]

theorem mem_zipWith_pair (l : List (ℚ × ℚ)) :
    ∀ m : Arr, ∀ r : ℚ × ℚ × ℚ,
      r ∈ List.zipWith (fun (p : ℚ × ℚ) ci => (p.1, p.2, ci)) l m →
      ∃ p ∈ l, r.1 = p.1 ∧ r.2.1 = p.2 := by
  induction l with
  | nil => intro m r hr; simp at hr
  | cons p l ih =>
    intro m r hr
    cases m with
    | nil => simp at hr
    | cons c m =>
      simp only [List.zipWith_cons_cons, List.mem_cons] at hr
      rcases hr with hr | hr
      · exact ⟨p, List.mem_cons_self _ _, by rw [hr], by rw [hr]⟩
      · obtain ⟨q, hq1, hq2⟩ := ih m r hr
        exact ⟨q, List.mem_cons_of_mem _ hq1, hq2⟩

theorem ofFn_congr2 {n : Nat} (f g : Fin n → ℚ) (h : ∀ i, f i = g i) :
    List.ofFn f = List.ofFn g :=
  congrArg _ (funext h)

theorem take_replicate_append (k : Nat) (x : ℚ) (l : Arr) :
    (List.replicate k x ++ l).take k = List.replicate k x := by
  induction k with
  | zero => simp
  | succ k ih => simp [List.replicate_succ, List.take_succ_cons, ih]

theorem fwdSweep_band (A e : ℚ) (hA : 0 ≤ A) (he : eps18 ≤ e) :
    ∀ k p, A + e ≤ p →
      ∃ out, fwdSweep p 0 (List.replicate k (A, e + A + A, A, 0) ++ [(0, 1, A, 0)]) =
          .ok out ∧
        ∀ r ∈ out, eps18 ≤ r.1 ∧ r.2 = 0 := by
  have heps : (0 : ℚ) < eps18 := by norm_num [eps18]
  intro k
  induction k with
  | zero =>
    intro p hp
    have hpe : eps18 ≤ p := le_trans he (le_trans (le_add_of_nonneg_left hA) hp)
    have hnlt : ¬ rabs p < eps18 := by
      rw [rabs_of_nonneg _ (le_trans heps.le hpe)]
      exact not_lt.mpr hpe
    refine ⟨[(1, 0)], ?_, ?_⟩
    · simp only [List.replicate, List.nil_append, fwdSweep, hnlt, if_false, Except.map]
      norm_num
    · intro r hr
      simp only [List.mem_singleton] at hr
      subst hr
      exact ⟨by norm_num [eps18], rfl⟩
  | succ k ih =>
    intro p hp
    have hpe : eps18 ≤ p := le_trans he (le_trans (le_add_of_nonneg_left hA) hp)
    have hp0 : 0 < p := lt_of_lt_of_le heps hpe
    have hnlt : ¬ rabs p < eps18 := by
      rw [rabs_of_nonneg _ hp0.le]
      exact not_lt.mpr hpe
    have hb2 : A + e ≤ e + A + A - A / p * A := by
      have hd1 : A / p ≤ 1 := (div_le_one hp0).mpr
        (le_trans (le_add_of_nonneg_right (le_trans heps.le he)) hp)
      have hd2 : A / p * A ≤ A := by
        calc A / p * A ≤ 1 * A := by
              exact mul_le_mul_of_nonneg_right hd1 hA
          _ = A := one_mul A
      linarith
    obtain ⟨out, hout, hprops⟩ := ih (e + A + A - A / p * A) hb2
    refine ⟨(e + A + A - A / p * A, 0) :: out, ?_, ?_⟩
    · simp only [List.replicate_succ, List.cons_append, fwdSweep, hnlt, if_false]
      rw [show (0 : ℚ) - A / p * 0 = 0 by ring]
      have hout2 : fwdSweep (e + A + A - A / p * A) 0
          ((List.replicate k (A, e + A + A, A, 0)).append [(0, 1, A, 0)]) = .ok out := hout
      rw [hout2]
      rfl
    · intro r hr
      rcases List.mem_cons.mp hr with hr | hr
      · subst hr
        exact ⟨le_trans (le_trans he (le_add_of_nonneg_left hA)) hb2, rfl⟩
      · exact hprops r hr

theorem solve_tridiagonal_band_zero (n : Nat) (hn : 3 ≤ n) (A e : ℚ)
    (hA : 0 ≤ A) (he : eps18 ≤ e) :
    solve_tridiagonal (0 :: (List.replicate (n - 2) A ++ [0]))
      (1 :: (List.replicate (n - 2) (e + A + A) ++ [1]))
      (0 :: (List.replicate (n - 2) A ++ [0]))
      (0 :: (List.replicate (n - 2) 0 ++ [0])) = .ok (List.replicate n 0) := by
  have heps : (0 : ℚ) < eps18 := by norm_num [eps18]
  obtain ⟨j, hj⟩ : ∃ j, n - 2 = j + 1 := ⟨n - 3, by omega⟩
  rw [hj]
  have hblen : (1 :: (List.replicate (j + 1) (e + A + A) ++ [1]) : Arr).length = j + 3 := by
    simp
  have hguard : (0 :: (List.replicate (j + 1) A ++ [0]) : Arr).length =
      (1 :: (List.replicate (j + 1) (e + A + A) ++ [1]) : Arr).length ∧
      (0 :: (List.replicate (j + 1) A ++ [0]) : Arr).length =
      (1 :: (List.replicate (j + 1) (e + A + A) ++ [1]) : Arr).length ∧
      (0 :: (List.replicate (j + 1) 0 ++ [0]) : Arr).length =
      (1 :: (List.replicate (j + 1) (e + A + A) ++ [1]) : Arr).length := by
    refine ⟨by simp, by simp, by simp⟩
  have hrows : zip4 ((0 :: (List.replicate (j + 1) A ++ [0]) : Arr).drop 1)
      ((1 :: (List.replicate (j + 1) (e + A + A) ++ [1]) : Arr).drop 1)
      ((0 :: (List.replicate (j + 1) A ++ [0]) : Arr).take
        ((1 :: (List.replicate (j + 1) (e + A + A) ++ [1]) : Arr).length - 1))
      ((0 :: (List.replicate (j + 1) 0 ++ [0]) : Arr).drop 1) =
      (A, e + A + A, 0, 0) ::
        (List.replicate j (A, e + A + A, A, 0) ++ [(0, 1, A, 0)]) := by
    rw [hblen]
    have h1 : ((0 :: (List.replicate (j + 1) A ++ [0]) : Arr).drop 1) =
        A :: (List.replicate j A ++ [0]) := by
      simp [List.replicate_succ]
    have h2 : ((1 :: (List.replicate (j + 1) (e + A + A) ++ [1]) : Arr).drop 1) =
        (e + A + A) :: (List.replicate j (e + A + A) ++ [1]) := by
      simp [List.replicate_succ]
    have h3 : ((0 :: (List.replicate (j + 1) A ++ [0]) : Arr).take (j + 3 - 1)) =
        0 :: (List.replicate j A ++ [A]) := by
      have : j + 3 - 1 = (j + 1) + 1 := by omega
      rw [this, List.take_succ_cons, take_replicate_append, List.replicate_succ']
    have h4 : ((0 :: (List.replicate (j + 1) 0 ++ [0]) : Arr).drop 1) =
        0 :: (List.replicate j 0 ++ [0]) := by
      simp [List.replicate_succ]
    rw [h1, h2, h3, h4]
    simp only [zip4]
    rw [zip4_append (List.replicate j A) (List.replicate j (e + A + A))
      (List.replicate j A) (List.replicate j 0) [0] [1] [A] [0] j
      (by simp) (by simp) (by simp) (by simp)]
    rw [zip4_replicate]
    rfl
  obtain ⟨out, hout, hprops⟩ := fwdSweep_band A e hA he j (e + A + A)
    (by linarith)
  have houtlen := fwd_ok_length _ _ _ _ hout
  have hnlt1 : ¬ rabs (1 : ℚ) < eps18 := by
    rw [rabs_of_nonneg 1 (by norm_num)]
    norm_num [eps18]
  have hfwd : fwdSweep 1 0 ((A, e + A + A, 0, 0) ::
      (List.replicate j (A, e + A + A, A, 0) ++ [(0, 1, A, 0)])) =
      .ok ((e + A + A, 0) :: out) := by
    simp only [fwdSweep, hnlt1, if_false]
    rw [show e + A + A - A / 1 * 0 = e + A + A by ring,
      show (0 : ℚ) - A / 1 * 0 = 0 by ring, hout]
    rfl
  simp only [solve_tridiagonal, hguard, and_self, if_true]
  rw [hrows, hfwd]
  show backSub (List.zipWith (fun (p : ℚ × ℚ) ci => (p.1, p.2, ci))
      ((1, 0) :: ((e + A + A, 0) :: out)) (0 :: (List.replicate (j + 1) A ++ [0]))) =
    .ok (List.replicate n 0)
  have hbprops : ∀ q ∈ ((1 : ℚ), (0 : ℚ)) :: ((e + A + A, 0) :: out),
      eps18 ≤ q.1 ∧ q.2 = 0 := by
    intro q hq
    rcases List.mem_cons.mp hq with hq | hq
    · subst hq
      refine ⟨?_, rfl⟩
      show eps18 ≤ 1
      norm_num [eps18]
    · rcases List.mem_cons.mp hq with hq | hq
      · subst hq
        refine ⟨?_, rfl⟩
        show eps18 ≤ e + A + A
        linarith
      · exact hprops q hq
  have hzprops : ∀ r ∈ List.zipWith (fun (p : ℚ × ℚ) ci => (p.1, p.2, ci))
      (((1 : ℚ), (0 : ℚ)) :: ((e + A + A, 0) :: out))
      (0 :: (List.replicate (j + 1) A ++ [0])),
      eps18 ≤ rabs r.1 ∧ r.2.1 = 0 := by
    intro r hr
    obtain ⟨q, hq1, hq2⟩ := mem_zipWith_pair _ _ _ hr
    obtain ⟨hq3, hq4⟩ := hbprops q hq1
    refine ⟨?_, by rw [hq2.2, hq4]⟩
    rw [hq2.1, rabs_of_nonneg _ (le_trans heps.le hq3)]
    exact hq3
  rw [backSub_zeros _ hzprops]
  have houtlen2 : out.length = j + 1 := by
    rw [houtlen]
    simp
  have hzlen : (List.zipWith (fun (p : ℚ × ℚ) ci => (p.1, p.2, ci))
      (((1 : ℚ), (0 : ℚ)) :: ((e + A + A, 0) :: out))
      (0 :: (List.replicate (j + 1) A ++ [0]))).length = n := by
    rw [List.length_zipWith]
    simp only [List.length_cons, houtlen2, List.length_append, List.length_replicate,
      List.length_singleton]
    omega
  rw [hzlen]

theorem watSystem_uniform (mat : MatModel) (cfg : Config) (hn : 3 ≤ cfg.NumNP)
    (hq : cfg.q_bot = 0) :
    watSystem mat cfg (List.replicate cfg.NumNP 0)
      (List.replicate cfg.NumNP (mat.content cfg.h_top))
      (List.replicate cfg.NumNP cfg.h_top)
      (List.replicate cfg.NumNP (mat.content cfg.h_top)) =
      (0 :: (List.replicate (cfg.NumNP - 2)
          (mat.conductivity cfg.h_top / (cfg.dz * cfg.dz)) ++ [0]),
       1 :: (List.replicate (cfg.NumNP - 2)
          (mat.capacity cfg.h_top / cfg.dt
            + mat.conductivity cfg.h_top / (cfg.dz * cfg.dz)
            + mat.conductivity cfg.h_top / (cfg.dz * cfg.dz)) ++ [1]),
       0 :: (List.replicate (cfg.NumNP - 2)
          (mat.conductivity cfg.h_top / (cfg.dz * cfg.dz)) ++ [0]),
       0 :: (List.replicate (cfg.NumNP - 2) 0 ++ [0])) := by
  have gK : ∀ i, i < cfg.NumNP →
      (List.replicate cfg.NumNP (mat.conductivity cfg.h_top)).getD i 0
        = mat.conductivity cfg.h_top := fun i hi => getD_replicate _ _ _ _ hi
  have gC : ∀ i, i < cfg.NumNP →
      (List.replicate cfg.NumNP (mat.capacity cfg.h_top)).getD i 0
        = mat.capacity cfg.h_top := fun i hi => getD_replicate _ _ _ _ hi
  have gH : ∀ i, i < cfg.NumNP →
      (List.replicate cfg.NumNP cfg.h_top).getD i 0 = cfg.h_top :=
    fun i hi => getD_replicate _ _ _ _ hi
  have gT : ∀ i, i < cfg.NumNP →
      (List.replicate cfg.NumNP (mat.content cfg.h_top)).getD i 0
        = mat.content cfg.h_top := fun i hi => getD_replicate _ _ _ _ hi
  have gS : ∀ i, i < cfg.NumNP →
      (List.replicate cfg.NumNP (0 : ℚ)).getD i 0 = 0 :=
    fun i hi => getD_replicate _ _ _ _ hi
  simp only [watSystem, List.map_replicate, Prod.mk.injEq]
  refine ⟨?_, ?_, ?_, ?_⟩
  · refine (ofFn_congr2 _ (fun i : Fin cfg.NumNP =>
        if i.1 = cfg.NumNP - 1 then 0 else if i.1 = 0 then 0
        else mat.conductivity cfg.h_top / (cfg.dz * cfg.dz)) ?_).trans
      (ofFn_three_band cfg.NumNP (by omega) 0 0 _)
    intro i
    dsimp only
    have hi := i.isLt
    by_cases h1 : i.1 = cfg.NumNP - 1
    · have hno : ¬ (1 ≤ i.1 ∧ i.1 ≤ cfg.NumNP - 2) := by omega
      rw [if_neg hno, if_pos h1]
    · by_cases h0 : i.1 = 0
      · have hno : ¬ (1 ≤ i.1 ∧ i.1 ≤ cfg.NumNP - 2) := by omega
        rw [if_neg hno, if_neg h1, if_pos h0]
      · have hyes : 1 ≤ i.1 ∧ i.1 ≤ cfg.NumNP - 2 := by omega
        rw [if_pos hyes, if_neg h1, if_neg h0, gK i.1 (by omega),
          gK (i.1 - 1) (by omega)]
        ring
  · refine (ofFn_congr2 _ (fun i : Fin cfg.NumNP =>
        if i.1 = cfg.NumNP - 1 then 1 else if i.1 = 0 then 1
        else mat.capacity cfg.h_top / cfg.dt
          + mat.conductivity cfg.h_top / (cfg.dz * cfg.dz)
          + mat.conductivity cfg.h_top / (cfg.dz * cfg.dz)) ?_).trans
      (ofFn_three_band cfg.NumNP (by omega) 1 1 _)
    intro i
    dsimp only
    have hi := i.isLt
    by_cases h1 : i.1 = cfg.NumNP - 1
    · rw [if_pos h1, if_pos h1]
    · by_cases h0 : i.1 = 0
      · rw [if_neg h1, if_pos h0, if_neg h1, if_pos h0]
      · have hyes : 1 ≤ i.1 ∧ i.1 ≤ cfg.NumNP - 2 := by omega
        rw [if_neg h1, if_neg h0, if_pos hyes, if_pos hyes, if_pos hyes,
          if_neg h1, if_neg h0, gC i.1 (by omega), gK i.1 (by omega),
          gK (i.1 - 1) (by omega), gK (i.1 + 1) (by omega)]
        ring
  · refine (ofFn_congr2 _ (fun i : Fin cfg.NumNP =>
        if i.1 = cfg.NumNP - 1 then 0 else if i.1 = 0 then 0
        else mat.conductivity cfg.h_top / (cfg.dz * cfg.dz)) ?_).trans
      (ofFn_three_band cfg.NumNP (by omega) 0 0 _)
    intro i
    dsimp only
    have hi := i.isLt
    by_cases h1 : i.1 = cfg.NumNP - 1
    · have hno : ¬ (1 ≤ i.1 ∧ i.1 ≤ cfg.NumNP - 2) := by omega
      rw [if_neg hno, if_pos h1]
    · by_cases h0 : i.1 = 0
      · have hno : ¬ (1 ≤ i.1 ∧ i.1 ≤ cfg.NumNP - 2) := by omega
        rw [if_neg hno, if_neg h1, if_pos h0]
      · have hyes : 1 ≤ i.1 ∧ i.1 ≤ cfg.NumNP - 2 := by omega
        rw [if_pos hyes, if_neg h1, if_neg h0, gK i.1 (by omega),
          gK (i.1 + 1) (by omega)]
        ring
  · refine (ofFn_congr2 _ (fun i : Fin cfg.NumNP =>
        if i.1 = cfg.NumNP - 1 then 0 else if i.1 = 0 then 0 else 0) ?_).trans
      (ofFn_three_band cfg.NumNP (by omega) 0 0 _)
    intro i
    dsimp only
    have hi := i.isLt
    by_cases h1 : i.1 = cfg.NumNP - 1
    · rw [if_pos h1, if_pos h1, hq, gH (cfg.NumNP - 1) (by omega),
        gH (cfg.NumNP - 2) (by omega), sub_self, zero_div, zero_div, add_zero]
    · by_cases h0 : i.1 = 0
      · rw [if_neg h1, if_pos h0, if_neg h1, if_pos h0, gH 0 (by omega), sub_self]
      · have hyes : 1 ≤ i.1 ∧ i.1 ≤ cfg.NumNP - 2 := by omega
        rw [if_neg h1, if_neg h0, if_pos hyes, if_neg h1, if_neg h0,
          gT i.1 (by omega), gS i.1 (by omega),
          gH i.1 (by omega), gH (i.1 + 1) (by omega), gH (i.1 - 1) (by omega),
          gK i.1 (by omega), gK (i.1 + 1) (by omega), gK (i.1 - 1) (by omega)]
        ring

/-- Claim C2: steady-state fixed point of the water flow solver — with no
sink on state and `Tpot = 0` (so the built sink is zero), zero bottom flux
`q_bot = 0`, an initial head field uniformly equal to `h_top` and a
consistent water content `theta = content(h)`, one call of
`solve_water_flow` returns (and stores on the state) exactly the head and
water-content arrays it started from, for a material model whose
conductivity at `h_top` is nonnegative and whose capacity-over-`dt` pivot
contribution clears the solver's `1e-18` singularity floor. -/
theorem water_flow_steady_state (mat : MatModel) (cfg : Config) (s : SimState)
    (hn : 3 ≤ cfg.NumNP)
    (hh : s.h = List.replicate cfg.NumNP cfg.h_top)
    (hth : s.theta = s.h.map mat.content)
    (hsink : s.sink = none)
    (hT : cfg.Tpot = 0)
    (hq : cfg.q_bot = 0)
    (htol : 0 < cfg.TolH)
    (hK : 0 ≤ mat.conductivity cfg.h_top)
    (hcap : eps18 ≤ mat.capacity cfg.h_top / cfg.dt) :
    solve_water_flow mat cfg s =
      .ok ({ s with sink := some (List.replicate cfg.NumNP 0) },
           ⟨s.h, s.theta, List.replicate cfg.NumNP 0⟩) := by
  have hT2 : rabs cfg.Tpot < eps12 := by
    rw [hT]
    norm_num [rabs, eps12]
  have hS : build_sink_profile cfg s = List.replicate cfg.NumNP 0 := by
    simp only [build_sink_profile, hsink, hT2, if_true]
  have heq : s.h.map mat.content
      = List.replicate cfg.NumNP (mat.content cfg.h_top) := by
    rw [hh, List.map_replicate]
  have hA : 0 ≤ mat.conductivity cfg.h_top / (cfg.dz * cfg.dz) :=
    div_nonneg hK (mul_self_nonneg cfg.dz)
  have hstep : newtonStep mat cfg (List.replicate cfg.NumNP 0)
      (List.replicate cfg.NumNP (mat.content cfg.h_top))
      (List.replicate cfg.NumNP cfg.h_top,
       List.replicate cfg.NumNP (mat.content cfg.h_top)) =
      .ok (List.replicate cfg.NumNP 0,
        (List.replicate cfg.NumNP cfg.h_top,
         List.replicate cfg.NumNP (mat.content cfg.h_top))) := by
    simp only [newtonStep]
    rw [watSystem_uniform mat cfg hn hq]
    dsimp only
    simp only [List.map_cons, List.map_append, List.map_replicate,
      List.map_singleton, List.map_nil, neg_zero]
    rw [solve_tridiagonal_band_zero cfg.NumNP hn _ _ hA hcap]
    have hz : List.zipWith (· + ·) (List.replicate cfg.NumNP cfg.h_top)
        (List.replicate cfg.NumNP (0 : ℚ)) = List.replicate cfg.NumNP cfg.h_top := by
      have h2 := zipWith_add_replicate_zero (List.replicate cfg.NumNP cfg.h_top)
      rwa [List.length_replicate] at h2
    simp only [Except.map, hz, List.map_replicate]
  have hloop : ∀ fuel, newtonLoop mat cfg (List.replicate cfg.NumNP 0)
      (List.replicate cfg.NumNP (mat.content cfg.h_top)) fuel
      (List.replicate cfg.NumNP cfg.h_top,
       List.replicate cfg.NumNP (mat.content cfg.h_top)) =
      .ok (List.replicate cfg.NumNP cfg.h_top,
           List.replicate cfg.NumNP (mat.content cfg.h_top)) := by
    intro fuel
    cases fuel with
    | zero => rfl
    | succ m =>
      simp only [newtonLoop, hstep]
      rw [infNorm_replicate_zero, if_pos htol]
  simp only [solve_water_flow, hS, hth, hh, List.map_replicate]
  rw [hloop cfg.MaxIt]
  simp only [Except.map]

/-- Witness for C2: on a concrete three-node column with the unit material
model, the default configuration (`Tpot = 0`, `q_bot = 0`) and a uniform
head field at `h_top = -100`, one water-flow step returns exactly the
arrays it started from, plus the zero sink it built. -/
theorem water_flow_steady_state_witness :
    solve_water_flow matUnit { NumNP := 3 }
      { h := [-100, -100, -100], theta := [0, 0, 0] } =
      .ok ({ h := [-100, -100, -100], theta := [0, 0, 0],
             sink := some [0, 0, 0] },
           ⟨[-100, -100, -100], [0, 0, 0], [0, 0, 0]⟩) := by
  have h := water_flow_steady_state matUnit { NumNP := 3 }
    { h := [-100, -100, -100], theta := [0, 0, 0] }
    (by norm_num) rfl rfl rfl rfl rfl
    (by show (0 : ℚ) < 1 / 10 ^ 6; norm_num)
    (by show (0 : ℚ) ≤ 1; norm_num)
    (by show eps18 ≤ 1 / (1 / 10); norm_num [eps18])
  simpa [List.replicate] using h

end Hydrus
